import Mathlib

/-
Verification of the mess chess engine core (board representation, move
application/reversion, move generation, check detection, minimax and
alpha-beta search).

Modelling notes.

The repository contains two iterations of the Board type.  The complete,
self-consistent iteration (src/src/main.rs, and the one the library files
src/src/move_generation.rs and src/src/evaluation.rs are written against:
they iterate `board.piece_list` as a vector of (Piece, Square) pairs)
stores the position as `piece_list: Vec<PieceOnBoard>` with
`type PieceOnBoard = (Piece, Square)` and linear-scan lookup.  The partial
free-list iteration in src/src/board.rs does not fit the rest of the
sources (it references `Square::index`, `Piece::at_square` and a second
`PieceOnBoard` type that exist nowhere, and its `remove_piece` is called
on an already-cleared square slot on every promotion), so the behavioural
model below embeds the piece-list Board, whose `apply_move`/`revert_move`
(src/src/main.rs, `Board::apply_move` / `Board::revert_move`) perform the
same assertion and update sequence as the ones cited from board.rs.

Machine integers: square coordinates are Rust i8 values combined only by
small additions; they are modelled as unbounded Int (no overflow occurs
for the on-board coordinates all claims quantify over).  Evaluation
scores are Rust f32 values; every score the engine manipulates is a sum
of at most 32 piece values from {0,1,3,5,9,200} and is therefore an
integer of magnitude at most 6400, on which f32 arithmetic (addition,
negation, comparison) is exact, so scores are modelled as Int.  The
alpha-beta seeds f32::MIN / f32::MAX are modelled by the exact integer
value of f32::MAX, 2^128 - 2^104.

Failure model: Rust `assert!`/`assert_eq!`/`Option::unwrap` abort the
program; fallible operations are modelled in the Option monad, `none`
meaning the operation panics.  Timing statistics (std::time) are not
modelled; node counts are.
-/

namespace Mess

/-- A board coordinate pair, file x and rank y (src/src/core.rs `Square`,
identical in src/src/main.rs). -/
structure Square where
  x : Int
  y : Int
deriving DecidableEq, Repr

/-- `Square::at` (named `at'` because `at` is reserved). -/
def Square.at' (x y : Int) : Square := ⟨x, y⟩

/-- `Square::file`. -/
def Square.file (s : Square) : Int := s.x

/-- `Square::rank`. -/
def Square.rank (s : Square) : Int := s.y

/-- `Square::is_on_board`. -/
def Square.is_on_board (s : Square) : Bool :=
  0 ≤ s.x && s.x < 8 && 0 ≤ s.y && s.y < 8

/-- `Square::delta`. -/
def Square.delta (s : Square) (dx dy : Int) : Square := ⟨s.x + dx, s.y + dy⟩

/-- `Castle` (src/src/core.rs). -/
inductive Castle
  | KingSide
  | QueenSide
deriving DecidableEq, Repr

/-- `Color` (src/src/core.rs). -/
inductive Color
  | White
  | Black
deriving DecidableEq, Repr

/-- `Color::switch`. -/
def Color.switch : Color → Color
  | .White => .Black
  | .Black => .White

/-- `Color::index`. -/
def Color.index : Color → Nat
  | .White => 0
  | .Black => 1

/-- `Color::evaluation_sign` (f32 plus/minus one, modelled as Int). -/
def Color.evaluation_sign : Color → Int
  | .White => 1
  | .Black => -1

/-- `Color::promotion_rank` (u8 in the source; the only comparison made
with it is `to.rank() as u8 == promotion_rank()`, and for i8 ranks the
u8 cast equals 7 exactly on rank 7 and equals 0 exactly on rank 0, so an
Int model is equivalent). -/
def Color.promotion_rank : Color → Int
  | .White => 7
  | .Black => 0

/-- `Color::back_rank`. -/
def Color.back_rank : Color → Int
  | .White => 0
  | .Black => 7

/-- Pawn forward direction per color.  src/src/move_generation.rs calls
`color.forward()`; the function body is absent from src/src/core.rs but
the same constant is spelled out inline in src/src/main.rs
(`generate_moves`, pawn arm: White => 1, Black => -1), which this
definition follows. -/
def Color.forward : Color → Int
  | .White => 1
  | .Black => -1

/-- Pawn home rank per color.  As with `forward`, the constants are the
inline ones of src/src/main.rs (`generate_moves`, pawn arm:
White => 1, Black => 6). -/
def Color.home_rank : Color → Int
  | .White => 1
  | .Black => 6

/-- `PieceKind` (src/src/core.rs). -/
inductive PieceKind
  | Pawn
  | Knight
  | Bishop
  | Rook
  | Queen
  | King
  | Dummy
deriving DecidableEq, Repr

/-- `PieceKind::value` (whole-numbered f32 table, modelled as Int). -/
def PieceKind.value : PieceKind → Int
  | .Pawn => 1
  | .Knight => 3
  | .Bishop => 3
  | .Rook => 5
  | .Queen => 9
  | .King => 200
  | .Dummy => 0

/-- Declaration-order index of a `PieceKind`, the order its derived Rust
`Ord` instance compares by. -/
def PieceKind.index : PieceKind → Nat
  | .Pawn => 0
  | .Knight => 1
  | .Bishop => 2
  | .Rook => 3
  | .Queen => 4
  | .King => 5
  | .Dummy => 6

/-- `Piece` (src/src/core.rs). -/
structure Piece where
  kind : PieceKind
  color : Color
deriving DecidableEq, Repr

/-- `Piece::create`. -/
def Piece.create (kind : PieceKind) (color : Color) : Piece := ⟨kind, color⟩

/-- `PieceKind::colored`. -/
def PieceKind.colored (kind : PieceKind) (color : Color) : Piece :=
  Piece.create kind color

/-- `Piece::value`. -/
def Piece.value (p : Piece) : Int := p.kind.value * p.color.evaluation_sign

/-- `PieceOnBoard` (src/src/core.rs / src/src/main.rs): a piece together
with the square it stands on. -/
abbrev PieceOnBoard := Piece × Square

/-- `Piece::at`: place a piece on a square. -/
def Piece.at' (p : Piece) (file rank : Int) : PieceOnBoard := (p, ⟨file, rank⟩)

/-- `ColorCastleRights` (src/src/core.rs). -/
structure ColorCastleRights where
  king_side : Bool
  queen_side : Bool
deriving DecidableEq, Repr

/-- `ColorCastleRights::all`. -/
def ColorCastleRights.all : ColorCastleRights := ⟨true, true⟩

/-- `ColorCastleRights::none`. -/
def ColorCastleRights.none' : ColorCastleRights := ⟨false, false⟩

/-- `ColorCastleRights::test`. -/
def ColorCastleRights.test (r : ColorCastleRights) : Castle → Bool
  | .KingSide => r.king_side
  | .QueenSide => r.queen_side

/-- `BoardCastleRights` (src/src/core.rs). -/
structure BoardCastleRights where
  white : ColorCastleRights
  black : ColorCastleRights
deriving DecidableEq, Repr

/-- `BoardCastleRights::all`. -/
def BoardCastleRights.all : BoardCastleRights :=
  ⟨ColorCastleRights.all, ColorCastleRights.all⟩

/-- `BoardCastleRights::none`. -/
def BoardCastleRights.none' : BoardCastleRights :=
  ⟨ColorCastleRights.none', ColorCastleRights.none'⟩

/-- `BoardCastleRights::get_rights`. -/
def BoardCastleRights.get_rights (r : BoardCastleRights) : Color → ColorCastleRights
  | .White => r.white
  | .Black => r.black

/-- `BoardCastleRights::set_rights`. -/
def BoardCastleRights.set_rights (r : BoardCastleRights) (c : Color)
    (v : ColorCastleRights) : BoardCastleRights :=
  match c with
  | .White => { r with white := v }
  | .Black => { r with black := v }

/-- Functional rendering of `rights.get_rights_mut(c).king_side = v`. -/
def BoardCastleRights.set_king_side (r : BoardCastleRights) (c : Color)
    (v : Bool) : BoardCastleRights :=
  r.set_rights c { r.get_rights c with king_side := v }

/-- Functional rendering of `rights.get_rights_mut(c).queen_side = v`. -/
def BoardCastleRights.set_queen_side (r : BoardCastleRights) (c : Color)
    (v : Bool) : BoardCastleRights :=
  r.set_rights c { r.get_rights c with queen_side := v }

/-- `Board` (piece-list representation, src/src/main.rs: a list of
(Piece, Square) pairs, the side to move, the en-passant target and the
castle rights). -/
structure Board where
  piece_list : List PieceOnBoard
  side : Color
  en_passant : Option Square
  castle_rights : BoardCastleRights
deriving DecidableEq, Repr

/-- `Board::create_empty`. -/
def Board.create_empty : Board :=
  ⟨[], .White, none, BoardCastleRights.none'⟩

/-- `Board::piece_at`: first list entry standing on the square. -/
def Board.piece_at (b : Board) (sq : Square) : Option Piece :=
  (b.piece_list.find? (fun pb => pb.2 == sq)).map (fun pb => pb.1)

/-- `Board::has_piece_at`. -/
def Board.has_piece_at (b : Board) (sq : Square) : Bool :=
  (b.piece_list.find? (fun pb => pb.2 == sq)).isSome

/-- `Move` (src/src/move_.rs / src/src/main.rs).  `from` is reserved in
Lean, hence `from'`. -/
structure Move where
  from' : Square
  to' : Square
  piece_kind : PieceKind
  capture : Option PieceOnBoard
  en_passant_before : Option Square
  en_passant_after : Option Square
  castle_rights_before : BoardCastleRights
  castle : Option Castle
  promotion : Option PieceKind
deriving DecidableEq, Repr

/-- `Move::from_to`. -/
def Move.from_to (b : Board) (piece_kind : PieceKind) (f t : Square) : Move :=
  { from' := f
    to' := t
    piece_kind := piece_kind
    capture := none
    en_passant_before := b.en_passant
    en_passant_after := none
    castle_rights_before := b.castle_rights
    castle := none
    promotion := none }

/-- `Move::castle` (named `castle'` because the Move field is already
called `castle`). -/
def Move.castle' (b : Board) (color : Color) (castle : Castle) : Move :=
  let file : Int :=
    match castle with
    | .KingSide => 6
    | .QueenSide => 2
  let rank := color.back_rank
  { Move.from_to b .King (Square.at' 4 rank) (Square.at' file rank) with
      castle := some castle }

/-- `Move::promotion` (named `promotion'`, see `castle'`). -/
def Move.promotion' (b : Board) (f t : Square) (promotion : PieceKind) : Move :=
  { Move.from_to b .Pawn f t with promotion := some promotion }

/-- `Move::promotion_capture`. -/
def Move.promotion_capture (b : Board) (f t : Square) (capture : PieceOnBoard)
    (promotion : PieceKind) : Move :=
  { Move.from_to b .Pawn f t with
      capture := some capture
      promotion := some promotion }

/-- `Move::from_to_en_passant`. -/
def Move.from_to_en_passant (b : Board) (f t en_passant : Square) : Move :=
  { Move.from_to b .Pawn f t with en_passant_after := some en_passant }

/-- `Move::from_to_capture`. -/
def Move.from_to_capture (b : Board) (piece_kind : PieceKind) (f t : Square)
    (capture : PieceOnBoard) : Move :=
  { Move.from_to b piece_kind f t with capture := some capture }

/-- `Move::castle_rights_after`. -/
def Move.castle_rights_after (m : Move) (side : Color) : BoardCastleRights :=
  let rights := m.castle_rights_before
  let other_side := side.switch
  let rights :=
    match m.piece_kind with
    | .King => rights.set_rights side ColorCastleRights.none'
    | .Rook =>
      let rights :=
        if m.from' = Square.at' 7 side.back_rank then
          rights.set_king_side side false
        else rights
      if m.from' = Square.at' 0 side.back_rank then
        rights.set_queen_side side false
      else rights
    | _ => rights
  match m.capture with
  | some capture =>
    let rights :=
      if capture.2 = Square.at' 7 other_side.back_rank then
        rights.set_king_side other_side false
      else rights
    if capture.2 = Square.at' 0 other_side.back_rank then
      rights.set_queen_side other_side false
    else rights
  | none => rights

/-- `Move::rook_castle`.  The `assert!(rank == 0 || rank == 7)` of the
source is modelled by the Option result. -/
def Move.rook_castle (b : Board) (castle : Castle) (rank : Int) : Option Move :=
  if rank = 0 ∨ rank = 7 then
    match castle with
    | .KingSide => some (Move.from_to b .Rook (Square.at' 7 rank) (Square.at' 5 rank))
    | .QueenSide => some (Move.from_to b .Rook (Square.at' 0 rank) (Square.at' 3 rank))
  else none

/-- In-place mutation of the first piece standing on `sq`, the rendering
of `Board::piece_at_mut` followed by field assignments; `none` models the
`panic!` when no piece stands there. -/
def set_piece_at (l : List PieceOnBoard) (sq : Square)
    (f : PieceOnBoard → PieceOnBoard) : Option (List PieceOnBoard) :=
  match l with
  | [] => none
  | pb :: rest =>
    if pb.2 = sq then some (f pb :: rest)
    else (set_piece_at rest sq f).map (fun r => pb :: r)

/-- The mutation `apply_move_impl` performs on the moving piece: on a
promotion the kind is replaced, and the piece is relocated to `m.to'`. -/
def apply_mut (m : Move) (pb : PieceOnBoard) : PieceOnBoard :=
  (⟨match m.promotion with
    | some pr => pr
    | none => pb.1.kind, pb.1.color⟩, m.to')

/-- The mutation `revert_move_impl` performs on the moved piece: a
promoted piece reverts to a Pawn, and the piece is relocated back to
`m.from`. -/
def revert_mut (m : Move) (pb : PieceOnBoard) : PieceOnBoard :=
  (⟨match m.promotion with
    | some _ => .Pawn
    | none => pb.1.kind, pb.1.color⟩, m.from')

/-- `Board::apply_move_impl` specialised to a move whose `castle` field
is empty (every rook sub-move is of this shape): the
`assert_eq!(piece_at(m.from).unwrap().kind, m.piece_kind)` followed by
the `piece_at_mut` mutation. -/
def Board.apply_move_impl_nc (b : Board) (m : Move) : Option Board :=
  match b.piece_at m.from' with
  | none => none
  | some p =>
    if p.kind = m.piece_kind then
      (set_piece_at b.piece_list m.from' (apply_mut m)).map
        (fun l => { b with piece_list := l })
    else none

/-- `Board::apply_move_impl`.  A castle first applies the synthesized
rook move (which carries no nested castle, so the recursion bottoms out
after one level and is rendered by `apply_move_impl_nc`). -/
def Board.apply_move_impl (b : Board) (m : Move) : Option Board :=
  match b.piece_at m.from' with
  | none => none
  | some p =>
    if p.kind = m.piece_kind then
      match m.castle with
      | some c =>
        (Move.rook_castle b c m.from'.rank).bind fun rm =>
        (b.apply_move_impl_nc rm).bind fun b1 =>
        (set_piece_at b1.piece_list m.from' (apply_mut m)).map
          (fun l => { b1 with piece_list := l })
      | none =>
        (set_piece_at b.piece_list m.from' (apply_mut m)).map
          (fun l => { b with piece_list := l })
    else none

/-- `Board::apply_move`: assert the move's en-passant snapshot matches,
remove the captured piece (or assert the target square is free), run the
piece relocation, then update en-passant, castle rights (computed with
the side still to move) and switch the side. -/
def Board.apply_move (b : Board) (m : Move) : Option Board :=
  if m.en_passant_before = b.en_passant then
    (match m.capture with
     | some cap =>
       match b.piece_list.findIdx? (fun x => x.2 == cap.2) with
       | none => none
       | some pos =>
         if b.piece_list[pos]? = some cap then
           some { b with piece_list := b.piece_list.eraseIdx pos }
         else none
     | none =>
       if b.has_piece_at m.to' then none else some b : Option Board).bind fun b1 =>
    (b1.apply_move_impl m).map fun b2 =>
      { b2 with
          en_passant := m.en_passant_after
          castle_rights := m.castle_rights_after b2.side
          side := b2.side.switch }
  else none

/-- The kind assertion at the head of `Board::revert_move_impl`: the
piece now on `m.to'` must have the promoted kind, or the moving kind when
no promotion happened. -/
def revert_kind_ok (m : Move) (p : Piece) : Prop :=
  match m.promotion with
  | some pr => p.kind = pr
  | none => p.kind = m.piece_kind

instance (m : Move) (p : Piece) : Decidable (revert_kind_ok m p) := by
  unfold revert_kind_ok
  cases m.promotion <;> infer_instance

/-- `Board::revert_move_impl` specialised to a move without a castle
tag. -/
def Board.revert_move_impl_nc (b : Board) (m : Move) : Option Board :=
  match b.piece_at m.to' with
  | none => none
  | some p =>
    if revert_kind_ok m p then
      (set_piece_at b.piece_list m.to' (revert_mut m)).map
        (fun l => { b with piece_list := l })
    else none

/-- `Board::revert_move_impl`. -/
def Board.revert_move_impl (b : Board) (m : Move) : Option Board :=
  match b.piece_at m.to' with
  | none => none
  | some p =>
    if revert_kind_ok m p then
      match m.castle with
      | some c =>
        (Move.rook_castle b c m.from'.rank).bind fun rm =>
        (b.revert_move_impl_nc rm).bind fun b1 =>
        (set_piece_at b1.piece_list m.to' (revert_mut m)).map
          (fun l => { b1 with piece_list := l })
      | none =>
        (set_piece_at b.piece_list m.to' (revert_mut m)).map
          (fun l => { b with piece_list := l })
    else none

/-- `Board::revert_move`: undo the relocation, re-add the captured piece
(asserting its square is free), then restore side, en-passant and castle
rights from the move's snapshots. -/
def Board.revert_move (b : Board) (m : Move) : Option Board :=
  (b.revert_move_impl m).bind fun b1 =>
  (match m.capture with
   | some cap =>
     if b1.has_piece_at cap.2 then none
     else some { b1 with piece_list := b1.piece_list ++ [cap] }
   | none => some b1 : Option Board).map fun b2 =>
    { b2 with
        side := b2.side.switch
        en_passant := m.en_passant_before
        castle_rights := m.castle_rights_before }

/-- The lexicographic order the derived Rust `Ord` compares
`(Piece, Square)` by: piece kind in declaration order, then color
(White before Black), then square file, then square rank. -/
def pob_le (a b : PieceOnBoard) : Prop :=
  a.1.kind.index * 2 + a.1.color.index < b.1.kind.index * 2 + b.1.color.index ∨
    (a.1.kind.index * 2 + a.1.color.index = b.1.kind.index * 2 + b.1.color.index ∧
      (a.2.x < b.2.x ∨ (a.2.x = b.2.x ∧ a.2.y ≤ b.2.y)))

instance : DecidableRel pob_le := by
  intro a b
  unfold pob_le
  infer_instance

/-- `Board::semantic_eq`: equal side, en-passant and castle rights, and
equal piece lists after sorting.  Rust sorts with the derived total
order; since that order is antisymmetric, any sort produces the same
list, rendered here with insertion sort. -/
def Board.semantic_eq (b1 b2 : Board) : Bool :=
  if b1.side ≠ b2.side ∨ b1.en_passant ≠ b2.en_passant ∨
      b1.castle_rights ≠ b2.castle_rights then
    false
  else
    decide (b1.piece_list.insertionSort pob_le = b2.piece_list.insertionSort pob_le)


/-- `STRAIGHT_DIRECTIONS` (src/src/move_generation.rs). -/
def STRAIGHT_DIRECTIONS : List (Int × Int) := [(1, 0), (-1, 0), (0, 1), (0, -1)]

/-- `DIAGONAL_DIRECTIONS`. -/
def DIAGONAL_DIRECTIONS : List (Int × Int) := [(1, 1), (-1, 1), (-1, -1), (1, -1)]

/-- `KNIGHT_DIRECTIONS`. -/
def KNIGHT_DIRECTIONS : List (Int × Int) :=
  [(-2, -1), (-1, -2), (1, -2), (2, -1), (2, 1), (1, 2), (-1, 2), (-2, 1)]

/-- `KING_DIRECTIONS`: the adjacency offsets enumerated inline in the
King arm of `generate_moves`. -/
def KING_DIRECTIONS : List (Int × Int) :=
  [(1, 0), (-1, 0), (0, 1), (0, -1), (1, 1), (-1, 1), (-1, -1), (1, -1)]

/-- `probe_move` (src/src/move_generation.rs): append a move by
(dx, dy) when the target square is on board and unoccupied or holds an
enemy piece; the Bool reports whether the target was unoccupied. -/
def probe_move (b : Board) (p : Piece) (cur : Square) (dx dy : Int)
    (moves : List Move) : List Move × Bool :=
  let target := cur.delta dx dy
  if ¬ target.is_on_board then (moves, false)
  else
    match b.piece_at target with
    | some tp =>
      if tp.color = p.color then (moves, false)
      else (moves ++ [Move.from_to_capture b p.kind cur target (tp, target)], false)
    | none => (moves ++ [Move.from_to b p.kind cur target], true)

/-- The slider loop of `generate_directional_moves`, probing step
multiples 1, 2, … of the direction until a probe reports an occupied or
off-board target.  The loop of the source is unbounded; for every
direction it is invoked with (one of the eight compass directions, each
having a coordinate of magnitude one) at most eight consecutive probes
can see an on-board target, so the ninth probe always stops the loop and
fuel 9 reproduces it exactly. -/
def gen_dir_go (b : Board) (p : Piece) (cur : Square) (dx dy : Int) :
    Nat → Int → List Move → List Move
  | 0, _, moves => moves
  | fuel + 1, step, moves =>
    match probe_move b p cur (dx * step) (dy * step) moves with
    | (moves1, true) => gen_dir_go b p cur dx dy fuel (step + 1) moves1
    | (moves1, false) => moves1

/-- `generate_directional_moves`. -/
def generate_directional_moves (b : Board) (p : Piece) (cur : Square)
    (dx dy : Int) (moves : List Move) : List Move :=
  gen_dir_go b p cur dx dy 9 1 moves

/-- `generate_pawn_move`: on the promotion rank the move is expanded into
the four promotions in Knight, Bishop, Rook, Queen order, otherwise a
single (capturing or plain) pawn move is appended. -/
def generate_pawn_move (b : Board) (p : Piece) (f t : Square)
    (capture : Option PieceOnBoard) (moves : List Move) : List Move :=
  if t.rank = p.color.promotion_rank then
    moves ++
      (match capture with
       | some cap =>
         [Move.promotion_capture b f t cap .Knight,
          Move.promotion_capture b f t cap .Bishop,
          Move.promotion_capture b f t cap .Rook,
          Move.promotion_capture b f t cap .Queen]
       | none =>
         [Move.promotion' b f t .Knight,
          Move.promotion' b f t .Bishop,
          Move.promotion' b f t .Rook,
          Move.promotion' b f t .Queen])
  else
    moves ++
      [match capture with
       | some cap => Move.from_to_capture b .Pawn f t cap
       | none => Move.from_to b .Pawn f t]

/-- One iteration of the pawn capture loop (file delta -1 then 1):
a diagonal capture of an enemy piece, then the en-passant capture when
the diagonal equals the board en-passant target.  The en-passant arm
unwraps `piece_at` of the square beside the pawn; `none` models that
panic. -/
def pawn_capture_at (b : Board) (p : Piece) (sq : Square) (fd : Int)
    (moves : List Move) : Option (List Move) :=
  let f := p.color.forward
  let moves1 :=
    match b.piece_at (sq.delta fd f) with
    | some tp =>
      if tp.color ≠ p.color then
        generate_pawn_move b p sq (sq.delta fd f) (some (tp, sq.delta fd f)) moves
      else moves
    | none => moves
  if b.en_passant = some (sq.delta fd f) then
    match b.piece_at (sq.delta fd 0) with
    | some ep =>
      some (moves1 ++ [Move.from_to_capture b p.kind sq (sq.delta fd f) (ep, sq.delta fd 0)])
    | none => none
  else some moves1

/-- The Pawn arm of `generate_moves`: single push (with promotion
expansion), double push from the home rank, then the capture loop. -/
def pawn_moves (b : Board) (p : Piece) (sq : Square) (moves : List Move) :
    Option (List Move) :=
  let f := p.color.forward
  let moves1 :=
    if ¬ b.has_piece_at (sq.delta 0 f) ∧ (sq.delta 0 f).is_on_board then
      let m2 := generate_pawn_move b p sq (sq.delta 0 f) none moves
      if sq.rank = p.color.home_rank ∧ ¬ b.has_piece_at (sq.delta 0 (f * 2)) ∧
          (sq.delta 0 (f * 2)).is_on_board then
        m2 ++ [Move.from_to_en_passant b sq (sq.delta 0 (f * 2)) (sq.delta 0 f)]
      else m2
    else moves
  (pawn_capture_at b p sq (-1) moves1).bind fun moves2 =>
    pawn_capture_at b p sq 1 moves2

/-- The castle generation at the end of the King arm: a king-side castle
when the right is granted and files 5 and 6 of the back rank are free,
then a queen-side castle when the right is granted and files 3, 2 and 1
are free. -/
def castle_moves (b : Board) (p : Piece) (moves : List Move) : List Move :=
  let bk := p.color.back_rank
  let moves1 :=
    if (b.castle_rights.get_rights p.color).test .KingSide then
      if ¬ b.has_piece_at (Square.at' 5 bk) ∧ ¬ b.has_piece_at (Square.at' 6 bk) then
        moves ++ [Move.castle' b p.color .KingSide]
      else moves
    else moves
  if (b.castle_rights.get_rights p.color).test .QueenSide then
    if ¬ b.has_piece_at (Square.at' 3 bk) ∧ ¬ b.has_piece_at (Square.at' 2 bk) ∧
        ¬ b.has_piece_at (Square.at' 1 bk) then
      moves1 ++ [Move.castle' b p.color .QueenSide]
    else moves1
  else moves1

/-- Moves contributed by one piece-list entry: skip pieces of the idle
color, then dispatch on the piece kind exactly as the `generate_moves`
match does. -/
def piece_moves (b : Board) (pb : PieceOnBoard) (moves : List Move) :
    Option (List Move) :=
  if pb.1.color ≠ b.side then some moves
  else
    match pb.1.kind with
    | .Pawn => pawn_moves b pb.1 pb.2 moves
    | .Rook =>
      some (STRAIGHT_DIRECTIONS.foldl
        (fun ms d => generate_directional_moves b pb.1 pb.2 d.1 d.2 ms) moves)
    | .Bishop =>
      some (DIAGONAL_DIRECTIONS.foldl
        (fun ms d => generate_directional_moves b pb.1 pb.2 d.1 d.2 ms) moves)
    | .Queen =>
      some (DIAGONAL_DIRECTIONS.foldl
        (fun ms d => generate_directional_moves b pb.1 pb.2 d.1 d.2 ms)
        (STRAIGHT_DIRECTIONS.foldl
          (fun ms d => generate_directional_moves b pb.1 pb.2 d.1 d.2 ms) moves))
    | .King =>
      some (castle_moves b pb.1
        (KING_DIRECTIONS.foldl (fun ms d => (probe_move b pb.1 pb.2 d.1 d.2 ms).1) moves))
    | .Knight =>
      some (KNIGHT_DIRECTIONS.foldl (fun ms d => (probe_move b pb.1 pb.2 d.1 d.2 ms).1) moves)
    | .Dummy => some moves

/-- `generate_moves` (src/src/move_generation.rs, identical in
src/src/main.rs): fold the per-piece generation over the piece list,
threading the accumulated move vector. -/
def generate_moves (b : Board) : Option (List Move) :=
  b.piece_list.foldlM (fun ms pb => piece_moves b pb ms) []

/-- Accumulated-moves discipline for an Option-returning generator: the
input accumulator is a prefix of the output. -/
def acc_map (f : List Move → Option (List Move)) : Prop :=
  ∀ ms, f ms = (f []).map (fun l => ms ++ l)

/-- The ray walk of `probe_direction`, reported with the same fuel
argument as `gen_dir_go`: at most eight consecutive squares along a
compass direction are on board, so the ninth guard always fails and fuel
9 reproduces the unbounded loop. -/
def probe_dir_go (b : Board) (d : Int × Int) : Nat → Square → Option Piece
  | 0, _ => none
  | fuel + 1, sq =>
    if sq.is_on_board then
      match b.piece_at sq with
      | some p => some p
      | none => probe_dir_go b d fuel (sq.delta d.1 d.2)
    else none

/-- `probe_direction` (src/src/move_generation.rs). -/
def probe_direction (b : Board) (f : Square) (d : Int × Int) : Option Piece :=
  probe_dir_go b d 9 (f.delta d.1 d.2)

/-- `Board::king_square`: the square of the first piece-list entry that
is a king of the given color. -/
def Board.king_square (b : Board) (c : Color) : Option Square :=
  (b.piece_list.find? (fun pb => pb.1.kind == .King && pb.1.color == c)).map
    (fun pb => pb.2)

/-- `is_check` (src/src/move_generation.rs): rook/queen on the first
occupied square of a straight ray, bishop/queen on a diagonal ray,
knight on a knight offset, or an opposing pawn diagonally forward (the
king's own color's forward direction) of the king. -/
def is_check (b : Board) (c : Color) : Bool :=
  match b.king_square c with
  | none => false
  | some sq =>
    (STRAIGHT_DIRECTIONS.any fun d =>
      match probe_direction b sq d with
      | some p =>
        p == PieceKind.Rook.colored c.switch || p == PieceKind.Queen.colored c.switch
      | none => false) ||
    (DIAGONAL_DIRECTIONS.any fun d =>
      match probe_direction b sq d with
      | some p =>
        p == PieceKind.Bishop.colored c.switch || p == PieceKind.Queen.colored c.switch
      | none => false) ||
    (KNIGHT_DIRECTIONS.any fun d =>
      b.piece_at (sq.delta d.1 d.2) == some (PieceKind.Knight.colored c.switch)) ||
    (([-1, 1] : List Int).any fun xd =>
      b.piece_at (sq.delta xd c.forward) == some (PieceKind.Pawn.colored c.switch))

/-- `static_evaluation` (src/src/evaluation.rs): signed material sum. -/
def static_evaluation (b : Board) : Int :=
  b.piece_list.foldl (fun acc pb => acc + pb.1.value) 0

/-- The exact integer value of `f32::MAX` = 2^128 - 2^104, the value of
`num_traits::float::Float::max_value::<f32>()` the alpha-beta root seeds
its window with (`min_value` is its negation). -/
def fMAX : Int := 2 ^ 128 - 2 ^ 104

/-- The move loop of `minimax`, with the recursive call abstracted as
`child` (the search at one ply deeper): apply, recurse with the sign
flipped, scale by `neg`, revert, and keep the strictly best evaluation
together with its line (the chosen move prepended to the child's
line). -/
def minimax_loop (child : Board → Int → Nat → Option (Int × List Move × Board × Nat))
    (neg : Int) : List Move → Board → Option (Int × List Move) → Nat →
    Option (Option (Int × List Move) × Board × Nat)
  | [], b, best, n => some (best, b, n)
  | m :: rest, b, best, n =>
    (b.apply_move m).bind fun b1 =>
    (child b1 (neg * -1) n).bind fun res =>
    let e := res.1 * neg
    (res.2.2.1.revert_move m).bind fun b3 =>
    let best1 :=
      match best with
      | none => some (e, m :: res.2.1)
      | some prev => if e > prev.1 then some (e, m :: res.2.1) else some prev
    minimax_loop child neg rest b3 best1 res.2.2.2

/-- `MinimaxEvaluator::minimax` (src/src/evaluation.rs), written over the
remaining depth `max_depth - depth` (the source counts `depth` up to
`self.max_depth`).  Returns the evaluation, the best line, the board
after the balanced apply/revert pairs, and the node count. -/
def minimax (b : Board) (neg : Int) (r : Nat) (n : Nat) :
    Option (Int × List Move × Board × Nat) :=
  match r with
  | 0 => some (static_evaluation b, [], b, n + 1)
  | r' + 1 =>
    (generate_moves b).bind fun ms =>
    if ms.isEmpty then some (static_evaluation b, [], b, n + 1)
    else
      (minimax_loop (fun b1 neg1 n1 => minimax b1 neg1 r' n1) neg ms b none (n + 1)).bind
        fun st =>
      match st.1 with
      | some best => some (best.1 * neg, best.2, st.2.1, st.2.2)
      | none => none

/-- `MinimaxEvaluator::evaluate` for a freshly created evaluator: clear
the best line, pick `neg` from the side to move, and run the search from
remaining depth `max_depth`.  Returns evaluation, best line, final board
and node count. -/
def minimax_evaluate (b : Board) (max_depth : Nat) :
    Option (Int × List Move × Board × Nat) :=
  let neg : Int :=
    match b.side with
    | .White => 1
    | .Black => -1
  minimax b neg max_depth 0

/-- The move loop of `alpha_beta_max`, with the one-ply-deeper min
search abstracted as `child`: recurse into the min node, return
immediately on `evaluation >= beta`, raise alpha, and track the maximum
child evaluation. -/
def ab_max_loop (child : Board → Int → Int → Nat → Option (Int × Board × Nat)) :
    List Move → Board → Int → Int → Option Int → Nat → Option (Int × Board × Nat)
  | [], b, _, _, best, n =>
    (match best with
     | some x => some (x, b, n)
     | none => none)
  | m :: rest, b, alpha, beta, best, n =>
    (b.apply_move m).bind fun b1 =>
    (child b1 alpha beta n).bind fun res =>
    (res.2.1.revert_move m).bind fun b3 =>
    let e := res.1
    if e ≥ beta then some (e, b3, res.2.2)
    else
      let alpha1 := if e > alpha then e else alpha
      let best1 :=
        match best with
        | none => some e
        | some x => if e > x then some e else some x
      ab_max_loop child rest b3 alpha1 beta best1 res.2.2

/-- The move loop of `alpha_beta_min`: return immediately on
`evaluation <= alpha`, lower beta, and track the minimum child
evaluation. -/
def ab_min_loop (child : Board → Int → Int → Nat → Option (Int × Board × Nat)) :
    List Move → Board → Int → Int → Option Int → Nat → Option (Int × Board × Nat)
  | [], b, _, _, best, n =>
    (match best with
     | some x => some (x, b, n)
     | none => none)
  | m :: rest, b, alpha, beta, best, n =>
    (b.apply_move m).bind fun b1 =>
    (child b1 alpha beta n).bind fun res =>
    (res.2.1.revert_move m).bind fun b3 =>
    let e := res.1
    if e ≤ alpha then some (e, b3, res.2.2)
    else
      let beta1 := if e < beta then e else beta
      let best1 :=
        match best with
        | none => some e
        | some x => if e < x then some e else some x
      ab_min_loop child rest b3 alpha beta1 best1 res.2.2

mutual

/-- `AlphaBetaEvaluator::alpha_beta_max` (src/src/evaluation.rs) over the
remaining depth.  Returns the evaluation, the board after the balanced
apply/revert pairs, and the node count. -/
def alpha_beta_max (b : Board) (alpha beta : Int) (r : Nat) (n : Nat) :
    Option (Int × Board × Nat) :=
  match r with
  | 0 => some (static_evaluation b, b, n + 1)
  | r' + 1 =>
    (generate_moves b).bind fun ms =>
    if ms.isEmpty then some (static_evaluation b, b, n + 1)
    else
      ab_max_loop (fun b1 a1 b1' n1 => alpha_beta_min b1 a1 b1' r' n1)
        ms b alpha beta none (n + 1)

/-- `AlphaBetaEvaluator::alpha_beta_min` over the remaining depth. -/
def alpha_beta_min (b : Board) (alpha beta : Int) (r : Nat) (n : Nat) :
    Option (Int × Board × Nat) :=
  match r with
  | 0 => some (static_evaluation b, b, n + 1)
  | r' + 1 =>
    (generate_moves b).bind fun ms =>
    if ms.isEmpty then some (static_evaluation b, b, n + 1)
    else
      ab_min_loop (fun b1 a1 b1' n1 => alpha_beta_max b1 a1 b1' r' n1)
        ms b alpha beta none (n + 1)

end

/-- The mutable state of an `AlphaBetaEvaluator`: node count (duration
is real time and not modelled), the best line, and the configured
maximum depth. -/
structure ABEvaluator where
  node_count : Nat
  best_line : List Move
  max_depth : Nat
deriving DecidableEq, Repr

/-- `AlphaBetaEvaluator::create`. -/
def ABEvaluator.create (max_depth : Nat) : ABEvaluator := ⟨0, [], max_depth⟩

/-- `AlphaBetaEvaluator::evaluate`: clear the best line, then dispatch on
the side to move, seeding the window with the extreme finite f32 values.
The alpha-beta procedures only touch the statistics, never the best
line. -/
def ABEvaluator.evaluate (ev : ABEvaluator) (b : Board) :
    Option (Int × ABEvaluator × Board) :=
  (match b.side with
   | .White => alpha_beta_max b (-fMAX) fMAX ev.max_depth ev.node_count
   | .Black => alpha_beta_min b (-fMAX) fMAX ev.max_depth ev.node_count
   : Option (Int × Board × Nat)).map
    fun res =>
      (res.1,
       { node_count := res.2.2, best_line := [], max_depth := ev.max_depth },
       res.2.1)

/-- `AlphaBetaEvaluator::get_best_line`. -/
def ABEvaluator.get_best_line (ev : ABEvaluator) : List Move := ev.best_line

/-- Order-free specification of the search value: at remaining depth 0 or
with no moves the static evaluation, otherwise the maximum (White to
move) or minimum (Black to move) of the children's values. -/
def game_value : Nat → Board → Option Int
  | 0, b => some (static_evaluation b)
  | r + 1, b =>
    (generate_moves b).bind fun ms =>
    if ms.isEmpty then some (static_evaluation b)
    else
      (ms.mapM fun m => (b.apply_move m).bind fun b1 => game_value r b1).bind fun vs =>
      match vs with
      | [] => none
      | v :: rest =>
        some (if b.side = .White then rest.foldl max v else rest.foldl min v)


/-- Minimax evaluated through the evaluator interface and projected to
the returned evaluation, for comparison with the alpha-beta result. -/
def minimax_value (b : Board) (max_depth : Nat) : Option Int :=
  (minimax_evaluate b max_depth).map fun r => r.1

/-- Alpha-beta evaluated from a fresh evaluator and projected to the
returned evaluation. -/
def alpha_beta_value (b : Board) (max_depth : Nat) : Option Int :=
  ((ABEvaluator.create max_depth).evaluate b).map fun r => r.1

/-- The board invariant "at most one piece per square" of the data
model, stated as pairwise distinct squares in the piece list. -/
def distinct_squares (b : Board) : Prop :=
  (b.piece_list.map fun pb => pb.2).Nodup

/-- Every piece stands on an on-board square. -/
def pieces_on_board (b : Board) : Prop :=
  ∀ pb ∈ b.piece_list, pb.2.is_on_board = true

/-- The en-passant target square, when set, is unoccupied (it is the
square the double-pushed pawn just passed through). -/
def ep_target_empty (b : Board) : Prop :=
  match b.en_passant with
  | none => True
  | some sq => b.has_piece_at sq = false

instance (b : Board) : Decidable (ep_target_empty b) := by
  unfold ep_target_empty
  cases b.en_passant <;> infer_instance

/-- Behind the en-passant target (one step back along the side to move's
forward direction) stands a piece of the opponent: the pawn whose double
push created the target. -/
def ep_behind_opponent (b : Board) : Prop :=
  match b.en_passant with
  | none => True
  | some sq =>
    (b.piece_at ⟨sq.x, sq.y - b.side.forward⟩).any
      (fun p => p.color == b.side.switch) = true

instance (b : Board) : Decidable (ep_behind_opponent b) := by
  unfold ep_behind_opponent
  cases b.en_passant <;> infer_instance

/-- The en-passant target square, when set, lies on the board. -/
def ep_on_board (b : Board) : Prop :=
  match b.en_passant with
  | none => True
  | some sq => sq.is_on_board = true

instance (b : Board) : Decidable (ep_on_board b) := by
  unfold ep_on_board
  cases b.en_passant <;> infer_instance

/-- A granted castle right is backed by that color's rook on the
corresponding home corner. -/
def rook_rights_coherent_at (b : Board) (c : Color) : Prop :=
  ((b.castle_rights.get_rights c).king_side = true →
    b.piece_at (Square.at' 7 c.back_rank) = some (PieceKind.Rook.colored c)) ∧
  ((b.castle_rights.get_rights c).queen_side = true →
    b.piece_at (Square.at' 0 c.back_rank) = some (PieceKind.Rook.colored c))

/-- `rook_rights_coherent_at` for both colors. -/
def rook_rights_coherent (b : Board) : Prop :=
  rook_rights_coherent_at b .White ∧ rook_rights_coherent_at b .Black

/-- When a color still has a castle right and still has a king on the
board, that king stands on its starting square. -/
def king_rights_coherent_at (b : Board) (c : Color) : Prop :=
  ((b.castle_rights.get_rights c).king_side = true ∨
      (b.castle_rights.get_rights c).queen_side = true) →
  (b.piece_list.any fun pb => pb.1 == PieceKind.King.colored c) = true →
  b.piece_at (Square.at' 4 c.back_rank) = some (PieceKind.King.colored c)

/-- `king_rights_coherent_at` for both colors. -/
def king_rights_coherent (b : Board) : Prop :=
  king_rights_coherent_at b .White ∧ king_rights_coherent_at b .Black

/-- Each color has at most one king. -/
def kings_unique_at (b : Board) (c : Color) : Prop :=
  (b.piece_list.filter fun pb => pb.1 == PieceKind.King.colored c).length ≤ 1

/-- `kings_unique_at` for both colors. -/
def kings_unique (b : Board) : Prop :=
  kings_unique_at b .White ∧ kings_unique_at b .Black

/-- The board well-formedness invariants of the data model: one piece
per square, coherent en-passant state, and castle rights backed by the
corresponding rook and king positions. -/
def WellFormed (b : Board) : Prop :=
  distinct_squares b ∧ pieces_on_board b ∧ ep_target_empty b ∧
    ep_behind_opponent b ∧ ep_on_board b ∧ rook_rights_coherent b ∧
    king_rights_coherent b ∧ kings_unique b

instance (b : Board) : Decidable (distinct_squares b) := by
  unfold distinct_squares
  infer_instance

instance (b : Board) : Decidable (pieces_on_board b) := by
  unfold pieces_on_board
  exact List.decidableBAll _ _

instance (b : Board) (c : Color) : Decidable (rook_rights_coherent_at b c) := by
  unfold rook_rights_coherent_at
  infer_instance

instance (b : Board) : Decidable (rook_rights_coherent b) := by
  unfold rook_rights_coherent
  infer_instance

instance (b : Board) (c : Color) : Decidable (king_rights_coherent_at b c) := by
  unfold king_rights_coherent_at
  infer_instance

instance (b : Board) : Decidable (king_rights_coherent b) := by
  unfold king_rights_coherent
  infer_instance

instance (b : Board) (c : Color) : Decidable (kings_unique_at b c) := by
  unfold kings_unique_at
  infer_instance

instance (b : Board) : Decidable (kings_unique b) := by
  unfold kings_unique
  infer_instance

instance (b : Board) : Decidable (WellFormed b) := by
  unfold WellFormed
  infer_instance


/-- The emptiness conditions `generate_moves` tests between king and rook
before emitting a castle move. -/
def castle_squares_empty (b : Board) (c : Color) : Castle → Prop
  | .KingSide =>
    ¬ b.has_piece_at (Square.at' 5 c.back_rank) ∧
      ¬ b.has_piece_at (Square.at' 6 c.back_rank)
  | .QueenSide =>
    ¬ b.has_piece_at (Square.at' 3 c.back_rank) ∧
      ¬ b.has_piece_at (Square.at' 2 c.back_rank) ∧
      ¬ b.has_piece_at (Square.at' 1 c.back_rank)

instance (b : Board) (c : Color) (s : Castle) :
    Decidable (castle_squares_empty b c s) := by
  cases s <;> unfold castle_squares_empty <;> infer_instance

/-- The shape shared by every generated move except the en-passant
capture and the castles: the move starts at the generating piece's
square with its kind, snapshots the board's en-passant and castle
rights, and either moves to a free on-board square or captures the
enemy piece standing on the destination. -/
def NonCastleFact (b : Board) (p : Piece) (sq : Square) (m : Move) : Prop :=
  m.from' = sq ∧ m.piece_kind = p.kind ∧
  m.en_passant_before = b.en_passant ∧
  m.castle_rights_before = b.castle_rights ∧
  m.castle = none ∧
  (m.promotion = none ∨ m.piece_kind = PieceKind.Pawn) ∧
  ((m.capture = none ∧ b.has_piece_at m.to' = false ∧ m.to'.is_on_board = true) ∨
   (∃ cap, m.capture = some cap ∧ cap.2 = m.to' ∧
     b.piece_at m.to' = some cap.1 ∧ cap.1.color ≠ p.color))

/-- The shape of a generated en-passant capture: the destination is the
board's en-passant target and the captured piece stands one step behind
it (beside the capturing pawn). -/
def EPFact (b : Board) (p : Piece) (sq : Square) (m : Move) : Prop :=
  m.from' = sq ∧ m.piece_kind = p.kind ∧
  m.en_passant_before = b.en_passant ∧
  m.castle_rights_before = b.castle_rights ∧
  m.castle = none ∧
  m.promotion = none ∧
  b.en_passant = some m.to' ∧
  ∃ cap, m.capture = some cap ∧
    cap.2 = ⟨m.to'.x, m.to'.y - p.color.forward⟩ ∧
    b.piece_at cap.2 = some cap.1

/-- The shape of a generated castle move: exactly `Move::castle` for the
generating king's color, emitted only with the right granted and the
intervening squares free. -/
def CastleFact (b : Board) (p : Piece) (m : Move) : Prop :=
  ∃ s, m = Move.castle' b p.color s ∧
    (b.castle_rights.get_rights p.color).test s = true ∧
    castle_squares_empty b p.color s

/-- Lone white pawn on (0, 1), the smallest reference test board. -/
def board_pawn : Board :=
  { piece_list := [PieceKind.Pawn.colored .White |>.at' 0 1]
    side := .White
    en_passant := none
    castle_rights := BoardCastleRights.none' }

/-- The single pawn push `generate_moves` produces first on
`board_pawn`. -/
def move_push : Move :=
  { from' := Square.at' 0 1
    to' := Square.at' 0 2
    piece_kind := .Pawn
    capture := none
    en_passant_before := none
    en_passant_after := none
    castle_rights_before := BoardCastleRights.none'
    castle := none
    promotion := none }

/-- The double pawn push `generate_moves` produces second on
`board_pawn`. -/
def move_double : Move :=
  { from' := Square.at' 0 1
    to' := Square.at' 0 3
    piece_kind := .Pawn
    capture := none
    en_passant_before := none
    en_passant_after := some (Square.at' 0 2)
    castle_rights_before := BoardCastleRights.none'
    castle := none
    promotion := none }

/-- `board_pawn` after applying `move_push`. -/
def board_pawn_applied : Board :=
  { piece_list := [PieceKind.Pawn.colored .White |>.at' 0 2]
    side := .Black
    en_passant := none
    castle_rights := BoardCastleRights.none' }

/-- `board_pawn_applied` after reverting `move_push`. -/
def board_pawn_rt : Board :=
  { piece_list := [PieceKind.Pawn.colored .White |>.at' 0 1]
    side := .White
    en_passant := none
    castle_rights := BoardCastleRights.none' }

/-- A board whose en-passant target square is itself occupied: black
pawns on (1, 5) and (1, 4), a white pawn on (2, 4), White to move,
en-passant target (1, 5). -/
def board_c1 : Board :=
  { piece_list :=
      [PieceKind.Pawn.colored .Black |>.at' 1 5,
       PieceKind.Pawn.colored .White |>.at' 2 4,
       PieceKind.Pawn.colored .Black |>.at' 1 4]
    side := .White
    en_passant := some (Square.at' 1 5)
    castle_rights := BoardCastleRights.none' }

/-- The en-passant capture `generate_moves` produces third on
`board_c1`. -/
def move_c1 : Move :=
  { from' := Square.at' 2 4
    to' := Square.at' 1 5
    piece_kind := .Pawn
    capture := some (PieceKind.Pawn.colored .Black |>.at' 1 4)
    en_passant_before := some (Square.at' 1 5)
    en_passant_after := none
    castle_rights_before := BoardCastleRights.none'
    castle := none
    promotion := none }

/-- What `apply_move move_c1` then `revert_move move_c1` leaves of
`board_c1`: the two pawns that shared square (1, 5) mid-flight come back
swapped. -/
def board_c1_rt : Board :=
  { piece_list :=
      [PieceKind.Pawn.colored .Black |>.at' 2 4,
       PieceKind.Pawn.colored .White |>.at' 1 5,
       PieceKind.Pawn.colored .Black |>.at' 1 4]
    side := .White
    en_passant := some (Square.at' 1 5)
    castle_rights := BoardCastleRights.none' }

/-- A board with a dangling black king-side castle right: the white
king on (5, 7), the black king on (0, 0), nothing on the black back
rank. -/
def board_c2 : Board :=
  { piece_list :=
      [PieceKind.King.colored .White |>.at' 5 7,
       PieceKind.King.colored .Black |>.at' 0 0]
    side := .White
    en_passant := none
    castle_rights :=
      { white := ColorCastleRights.none'
        black := { king_side := true, queen_side := false } } }

/-- The white king move of `board_c2` to square `t`. -/
def move_c2 (t : Square) : Move :=
  { from' := Square.at' 5 7
    to' := t
    piece_kind := .King
    capture := none
    en_passant_before := none
    en_passant_after := none
    castle_rights_before := board_c2.castle_rights
    castle := none
    promotion := none }

/-- The position after the white king of `board_c2` moved to `t`. -/
def board_c2_child (t : Square) : Board :=
  { piece_list :=
      [(PieceKind.King.colored .White, t),
       PieceKind.King.colored .Black |>.at' 0 0]
    side := .Black
    en_passant := none
    castle_rights := board_c2.castle_rights }

/-- White king on (4, 4), black pawn on (5, 3): the pawn stands one
diagonal step from the king in Black's forward direction but does not
attack it. -/
def board_c7 : Board :=
  { piece_list :=
      [PieceKind.King.colored .White |>.at' 4 4,
       PieceKind.Pawn.colored .Black |>.at' 5 3]
    side := .White
    en_passant := none
    castle_rights := BoardCastleRights.none' }

/-- White king on (4, 4), black pawn on (5, 5): a pawn that does give
check. -/
def board_c7b : Board :=
  { piece_list :=
      [PieceKind.King.colored .White |>.at' 4 4,
       PieceKind.Pawn.colored .Black |>.at' 5 5]
    side := .White
    en_passant := none
    castle_rights := BoardCastleRights.none' }

/-- A lone white king on (3, 3) with a dangling white king-side castle
right. -/
def board_c9 : Board :=
  { piece_list := [PieceKind.King.colored .White |>.at' 3 3]
    side := .White
    en_passant := none
    castle_rights :=
      { white := { king_side := true, queen_side := false }
        black := ColorCastleRights.none' } }

/-- The castle move `generate_moves` produces ninth on `board_c9`, with
`from` the empty square (4, 0). -/
def move_c9 : Move :=
  { from' := Square.at' 4 0
    to' := Square.at' 6 0
    piece_kind := .King
    capture := none
    en_passant_before := none
    en_passant_after := none
    castle_rights_before :=
      { white := { king_side := true, queen_side := false }
        black := ColorCastleRights.none' }
    castle := some .KingSide
    promotion := none }

/-- A lone white knight standing off the board on (-1, 3). -/
def board_c10 : Board :=
  { piece_list := [PieceKind.Knight.colored .White |>.at' (-1) 3]
    side := .White
    en_passant := none
    castle_rights := BoardCastleRights.none' }

/-- White king on (4, 0) with both rooks home and both white rights, the
castling reference test board. -/
def board_castle : Board :=
  { piece_list :=
      [PieceKind.King.colored .White |>.at' 4 0,
       PieceKind.Rook.colored .White |>.at' 0 0,
       PieceKind.Rook.colored .White |>.at' 7 0]
    side := .White
    en_passant := none
    castle_rights :=
      { white := ColorCastleRights.all
        black := ColorCastleRights.none' } }


/-- A pawn move built against a board with no en-passant target but
carrying a stale en-passant snapshot. -/
def move_c4 : Move :=
  { from' := Square.at' 0 1
    to' := Square.at' 0 2
    piece_kind := .Pawn
    capture := none
    en_passant_before := some (Square.at' 3 3)
    en_passant_after := none
    castle_rights_before := BoardCastleRights.none'
    castle := none
    promotion := none }

/-- The first move `generate_moves` produces on `board_c10`: a knight
hop from the off-board square (-1, 3). -/
def move_c10 : Move :=
  { from' := Square.at' (-1) 3
    to' := Square.at' 0 1
    piece_kind := .Knight
    capture := none
    en_passant_before := none
    en_passant_after := none
    castle_rights_before := BoardCastleRights.none'
    castle := none
    promotion := none }

end Mess

namespace Mess

theorem piece_key_inj : ∀ (k1 k2 : PieceKind) (c1 c2 : Color),
    k1.index * 2 + c1.index = k2.index * 2 + c2.index → k1 = k2 ∧ c1 = c2 := by
  intro k1 k2 c1 c2 h
  cases k1 <;> cases k2 <;> cases c1 <;> cases c2 <;>
    first
    | exact ⟨rfl, rfl⟩
    | (exfalso; revert h; decide)

instance : IsTrans PieceOnBoard pob_le :=
  ⟨by intro a b c h1 h2; unfold pob_le at h1 h2 ⊢; omega⟩

instance : IsTotal PieceOnBoard pob_le :=
  ⟨by intro a b; unfold pob_le; omega⟩

instance : IsAntisymm PieceOnBoard pob_le := by
  refine ⟨?_⟩
  intro a b h1 h2
  unfold pob_le at h1 h2
  have hk : a.1.kind.index * 2 + a.1.color.index =
      b.1.kind.index * 2 + b.1.color.index := by omega
  have hx : a.2.x = b.2.x := by omega
  have hy : a.2.y = b.2.y := by omega
  obtain ⟨hk1, hc1⟩ := piece_key_inj _ _ _ _ hk
  have ha : a = ((⟨a.1.kind, a.1.color⟩ : Piece), (⟨a.2.x, a.2.y⟩ : Square)) := rfl
  rw [ha, hk1, hc1, hx, hy]


theorem probe_move_acc (b : Board) (p : Piece) (cur : Square) (dx dy : Int)
    (ms : List Move) :
    probe_move b p cur dx dy ms =
      (ms ++ (probe_move b p cur dx dy []).1, (probe_move b p cur dx dy []).2) := by
  unfold probe_move
  dsimp only
  split
  · simp
  · cases h : b.piece_at (cur.delta dx dy) <;> simp only [h] <;> [skip; split] <;> simp

theorem gen_dir_go_acc (b : Board) (p : Piece) (cur : Square) (dx dy : Int) :
    ∀ (fuel : Nat) (step : Int) (ms : List Move),
      gen_dir_go b p cur dx dy fuel step ms =
        ms ++ gen_dir_go b p cur dx dy fuel step [] := by
  intro fuel
  induction fuel with
  | zero => intro step ms; simp [gen_dir_go]
  | succ fuel ih =>
    intro step ms
    rw [gen_dir_go, gen_dir_go, probe_move_acc, probe_move_acc b p cur _ _ []]
    simp only [List.nil_append]
    cases (probe_move b p cur (dx * step) (dy * step)) [] |>.2
    · simp
    · simp only []
      rw [ih, ih _ ((probe_move b p cur (dx * step) (dy * step) []).1)]
      simp

theorem generate_pawn_move_acc (b : Board) (p : Piece) (f t : Square)
    (cap : Option PieceOnBoard) (ms : List Move) :
    generate_pawn_move b p f t cap ms =
      ms ++ generate_pawn_move b p f t cap [] := by
  unfold generate_pawn_move
  split <;> cases cap <;> simp

theorem acc_map_bind {f g : List Move → Option (List Move)}
    (hf : acc_map f) (hg : acc_map g) :
    acc_map (fun ms => (f ms).bind g) := by
  intro ms
  dsimp only
  rw [hf ms]
  cases h : f [] with
  | none => simp
  | some lf =>
    show ((some (ms ++ lf)).bind g) = Option.map (fun l => ms ++ l) (g lf)
    rw [Option.some_bind, hg (ms ++ lf), hg lf]
    cases hg2 : g [] <;> simp

theorem pawn_capture_at_acc (b : Board) (p : Piece) (sq : Square) (fd : Int) :
    acc_map (fun ms => pawn_capture_at b p sq fd ms) := by
  intro ms
  unfold pawn_capture_at
  dsimp only
  cases h : b.piece_at (sq.delta fd p.color.forward) <;> simp only [h] <;> split
  · cases h2 : b.piece_at (sq.delta fd 0) <;> simp
  · simp
  · cases h2 : b.piece_at (sq.delta fd 0) <;> simp only [h2] <;> (try split) <;>
      (try rw [generate_pawn_move_acc]) <;> simp
  · split <;> (try rw [generate_pawn_move_acc]) <;> simp

theorem pawn_moves_first_part (b : Board) (p : Piece) (sq : Square) (ms : List Move) :
    (if ¬ b.has_piece_at (sq.delta 0 p.color.forward) ∧
        (sq.delta 0 p.color.forward).is_on_board then
      (if sq.rank = p.color.home_rank ∧
          ¬ b.has_piece_at (sq.delta 0 (p.color.forward * 2)) ∧
          (sq.delta 0 (p.color.forward * 2)).is_on_board then
        generate_pawn_move b p sq (sq.delta 0 p.color.forward) none ms ++
          [Move.from_to_en_passant b sq (sq.delta 0 (p.color.forward * 2))
            (sq.delta 0 p.color.forward)]
      else generate_pawn_move b p sq (sq.delta 0 p.color.forward) none ms)
    else ms) =
    ms ++
    (if ¬ b.has_piece_at (sq.delta 0 p.color.forward) ∧
        (sq.delta 0 p.color.forward).is_on_board then
      (if sq.rank = p.color.home_rank ∧
          ¬ b.has_piece_at (sq.delta 0 (p.color.forward * 2)) ∧
          (sq.delta 0 (p.color.forward * 2)).is_on_board then
        generate_pawn_move b p sq (sq.delta 0 p.color.forward) none [] ++
          [Move.from_to_en_passant b sq (sq.delta 0 (p.color.forward * 2))
            (sq.delta 0 p.color.forward)]
      else generate_pawn_move b p sq (sq.delta 0 p.color.forward) none [])
    else []) := by
  split <;> [split; skip] <;> (try rw [generate_pawn_move_acc]) <;> simp

theorem acc_map_precomp {f : List Move → Option (List Move)} (hf : acc_map f)
    (e : List Move) : acc_map (fun ms => f (ms ++ e)) := by
  intro ms
  dsimp only
  rw [hf (ms ++ e), hf ([] ++ e)]
  cases h : f [] <;> simp

theorem pawn_moves_acc (b : Board) (p : Piece) (sq : Square) :
    acc_map (fun ms => pawn_moves b p sq ms) := by
  have hbase :
      acc_map (fun ms =>
        (pawn_capture_at b p sq (-1) ms).bind fun m3 => pawn_capture_at b p sq 1 m3) :=
    acc_map_bind (pawn_capture_at_acc b p sq (-1)) (pawn_capture_at_acc b p sq 1)
  intro ms
  unfold pawn_moves
  dsimp only
  rw [pawn_moves_first_part]
  have h2 := acc_map_precomp hbase
    (if ¬ b.has_piece_at (sq.delta 0 p.color.forward) ∧
        (sq.delta 0 p.color.forward).is_on_board then
      (if sq.rank = p.color.home_rank ∧
          ¬ b.has_piece_at (sq.delta 0 (p.color.forward * 2)) ∧
          (sq.delta 0 (p.color.forward * 2)).is_on_board then
        generate_pawn_move b p sq (sq.delta 0 p.color.forward) none [] ++
          [Move.from_to_en_passant b sq (sq.delta 0 (p.color.forward * 2))
            (sq.delta 0 p.color.forward)]
      else generate_pawn_move b p sq (sq.delta 0 p.color.forward) none [])
    else []) ms
  dsimp only at h2
  rw [h2]
  rw [pawn_moves_first_part]
  simp


theorem castle_moves_acc (b : Board) (p : Piece) (ms : List Move) :
    castle_moves b p ms = ms ++ castle_moves b p [] := by
  unfold castle_moves
  dsimp only
  split <;> [split; skip] <;> split <;> (try split) <;> simp

theorem foldl_acc_append {β : Type} (g : List Move → β → List Move)
    (hg : ∀ ms d, g ms d = ms ++ g [] d) :
    ∀ (l : List β) (ms : List Move), l.foldl g ms = ms ++ l.foldl g [] := by
  intro l
  induction l with
  | nil => intro ms; simp
  | cons d l ih =>
    intro ms
    rw [List.foldl_cons, List.foldl_cons, ih (g ms d), ih (g [] d), hg ms d]
    simp

theorem gdm_acc (b : Board) (p : Piece) (sq : Square) (ms : List Move)
    (d : Int × Int) :
    generate_directional_moves b p sq d.1 d.2 ms =
      ms ++ generate_directional_moves b p sq d.1 d.2 [] := by
  unfold generate_directional_moves
  rw [gen_dir_go_acc]

theorem probe_fold_acc (b : Board) (p : Piece) (sq : Square)
    (dirs : List (Int × Int)) (ms : List Move) :
    dirs.foldl (fun ms d => (probe_move b p sq d.1 d.2 ms).1) ms =
      ms ++ dirs.foldl (fun ms d => (probe_move b p sq d.1 d.2 ms).1) [] := by
  refine foldl_acc_append _ ?_ dirs ms
  intro ms d
  rw [probe_move_acc]

theorem dir_fold_acc (b : Board) (p : Piece) (sq : Square)
    (dirs : List (Int × Int)) (ms : List Move) :
    dirs.foldl (fun ms d => generate_directional_moves b p sq d.1 d.2 ms) ms =
      ms ++ dirs.foldl (fun ms d => generate_directional_moves b p sq d.1 d.2 ms) [] := by
  refine foldl_acc_append _ ?_ dirs ms
  intro ms d
  rw [gdm_acc]

theorem piece_moves_acc (b : Board) (pb : PieceOnBoard) :
    acc_map (fun ms => piece_moves b pb ms) := by
  intro ms
  unfold piece_moves
  split
  · simp
  · cases hk : pb.1.kind <;> dsimp only
    · exact pawn_moves_acc b pb.1 pb.2 ms
    · rw [probe_fold_acc]
      simp
    · rw [dir_fold_acc]
      simp
    · rw [dir_fold_acc]
      simp
    · rw [dir_fold_acc, dir_fold_acc b pb.1 pb.2 STRAIGHT_DIRECTIONS ms,
        dir_fold_acc b pb.1 pb.2 DIAGONAL_DIRECTIONS
          (STRAIGHT_DIRECTIONS.foldl
            (fun ms d => generate_directional_moves b pb.1 pb.2 d.1 d.2 ms) [])]
      simp
    · rw [castle_moves_acc, probe_fold_acc,
        castle_moves_acc b pb.1
          (KING_DIRECTIONS.foldl (fun ms d => (probe_move b pb.1 pb.2 d.1 d.2 ms).1) [])]
      simp
    · simp

theorem mapM_some_rev {α β : Type} {f : α → Option β} :
    ∀ {l : List α} {ls : List β}, l.mapM f = some ls →
      ∀ {bs}, bs ∈ ls → ∃ a ∈ l, f a = some bs := by
  intro l
  induction l with
  | nil =>
    intro ls h bs hbs
    rw [List.mapM_nil] at h
    cases h
    simp at hbs
  | cons a l ih =>
    intro ls h bs hbs
    rw [List.mapM_cons] at h
    cases ha : f a <;> rw [ha] at h
    · simp at h
    · cases hl : l.mapM f <;> rw [hl] at h
      · simp at h
      · simp at h
        subst h
        rcases hbs with _ | hbs2
        · exact ⟨a, by simp, ha⟩
        · obtain ⟨a', ha', hfa'⟩ := ih hl (by assumption)
          exact ⟨a', by simp [ha'], hfa'⟩

theorem mapM_some_mem {α β : Type} {f : α → Option β} :
    ∀ {l : List α} {ls : List β}, l.mapM f = some ls →
      ∀ {a}, a ∈ l → ∃ bs ∈ ls, f a = some bs := by
  intro l
  induction l with
  | nil =>
    intro ls h a ha
    simp at ha
  | cons a0 l ih =>
    intro ls h a ha
    rw [List.mapM_cons] at h
    cases ha0 : f a0 <;> rw [ha0] at h
    · simp at h
    · cases hl : l.mapM f <;> rw [hl] at h
      · simp at h
      · simp at h
        subst h
        rcases ha with _ | ha2
        · exact ⟨_, by simp, ha0⟩
        · obtain ⟨bs, hbs, hfa⟩ := ih hl (by assumption)
          exact ⟨bs, by simp [hbs], hfa⟩

theorem generate_moves_fold (b : Board) :
    ∀ (l : List PieceOnBoard) (acc : List Move),
      l.foldlM (fun ms pb => piece_moves b pb ms) acc =
        (l.mapM (fun pb => piece_moves b pb [])).map
          (fun ls => acc ++ ls.flatten) := by
  intro l
  induction l with
  | nil =>
    intro acc
    rw [List.foldlM_nil, List.mapM_nil]
    simp
  | cons pb l ih =>
    intro acc
    rw [List.foldlM_cons, List.mapM_cons]
    have hpm := piece_moves_acc b pb acc
    dsimp only at hpm
    rw [hpm]
    cases h : piece_moves b pb [] with
    | none => simp
    | some bs =>
      simp only [Option.bind_eq_bind, Option.map_some', Option.some_bind,
        Option.pure_def, List.nil_append]
      rw [ih (acc ++ bs)]
      cases h2 : l.mapM (fun pb => piece_moves b pb []) <;> simp

theorem generate_moves_eq (b : Board) :
    generate_moves b =
      (b.piece_list.mapM (fun pb => piece_moves b pb [])).map List.flatten := by
  unfold generate_moves
  rw [generate_moves_fold b b.piece_list []]
  cases h : b.piece_list.mapM (fun pb => piece_moves b pb [])
  · rfl
  · simp

theorem mem_generate_moves {b : Board} {ms : List Move} {m : Move}
    (hg : generate_moves b = some ms) (hm : m ∈ ms) :
    ∃ pb ∈ b.piece_list, ∃ bs, piece_moves b pb [] = some bs ∧ m ∈ bs := by
  rw [generate_moves_eq] at hg
  cases h : b.piece_list.mapM (fun pb => piece_moves b pb []) with
  | none => rw [h] at hg; simp at hg
  | some ls =>
    rw [h] at hg
    simp only [Option.map_some', Option.some_inj] at hg
    subst hg
    rw [List.mem_flatten] at hm
    obtain ⟨bs, hbs, hmbs⟩ := hm
    obtain ⟨pb, hpb, hpbs⟩ := mapM_some_rev h hbs
    exact ⟨pb, hpb, bs, hpbs, hmbs⟩

theorem mem_generate_moves_of_piece {b : Board} {ms : List Move} {m : Move}
    {pb : PieceOnBoard} {bs : List Move} (hg : generate_moves b = some ms)
    (hpb : pb ∈ b.piece_list) (hbs : piece_moves b pb [] = some bs)
    (hm : m ∈ bs) : m ∈ ms := by
  rw [generate_moves_eq] at hg
  cases h : b.piece_list.mapM (fun pb => piece_moves b pb []) with
  | none => rw [h] at hg; simp at hg
  | some ls =>
    rw [h] at hg
    simp only [Option.map_some', Option.some_inj] at hg
    subst hg
    obtain ⟨bs', hbs', hfa⟩ := mapM_some_mem h hpb
    rw [hbs] at hfa
    cases hfa
    rw [List.mem_flatten]
    exact ⟨bs, hbs', hm⟩


theorem has_piece_at_false {b : Board} {sq : Square}
    (h : b.piece_at sq = none) : b.has_piece_at sq = false := by
  unfold Board.piece_at at h
  unfold Board.has_piece_at
  cases hf : b.piece_list.find? (fun pb => pb.2 == sq) <;> rw [hf] at h <;>
    simp_all

theorem probe_move_facts {b : Board} {p : Piece} {sq : Square} {dx dy : Int}
    {ms : List Move} {m : Move}
    (hm : m ∈ (probe_move b p sq dx dy ms).1) :
    m ∈ ms ∨ NonCastleFact b p sq m := by
  unfold probe_move at hm
  dsimp only at hm
  split at hm
  · exact Or.inl hm
  · rename_i hob
    cases hpa : b.piece_at (sq.delta dx dy) <;> rw [hpa] at hm
    · dsimp only at hm
      rw [List.mem_append] at hm
      rcases hm with hm | hm
      · exact Or.inl hm
      · rw [List.mem_singleton] at hm
        subst hm
        refine Or.inr ⟨rfl, rfl, rfl, rfl, rfl, Or.inl rfl, Or.inl ⟨rfl, ?_, ?_⟩⟩
        · exact has_piece_at_false hpa
        · simpa using hob
    · dsimp only at hm
      split at hm
      · exact Or.inl hm
      · rename_i hc
        rw [List.mem_append] at hm
        rcases hm with hm | hm
        · exact Or.inl hm
        · rw [List.mem_singleton] at hm
          subst hm
          refine Or.inr ⟨rfl, rfl, rfl, rfl, rfl, Or.inl rfl,
            Or.inr ⟨_, rfl, rfl, hpa, ?_⟩⟩
          simpa using hc

theorem gen_dir_go_facts {b : Board} {p : Piece} {sq : Square} {dx dy : Int} :
    ∀ {fuel : Nat} {step : Int} {ms : List Move} {m : Move},
      m ∈ gen_dir_go b p sq dx dy fuel step ms → m ∈ ms ∨ NonCastleFact b p sq m := by
  intro fuel
  induction fuel with
  | zero => intro step ms m hm; exact Or.inl hm
  | succ fuel ih =>
    intro step ms m hm
    rw [gen_dir_go] at hm
    rcases hpr : probe_move b p sq (dx * step) (dy * step) ms with ⟨ms1, flag⟩
    rw [hpr] at hm
    have hsub : ∀ m, m ∈ ms1 → m ∈ ms ∨ NonCastleFact b p sq m := by
      intro m hmem
      exact probe_move_facts (show m ∈ (probe_move b p sq (dx * step) (dy * step) ms).1 by
        rw [hpr]; exact hmem)
    cases flag
    · exact hsub m hm
    · dsimp only at hm
      rcases ih hm with hm1 | hf
      · exact hsub m hm1
      · exact Or.inr hf

theorem foldl_facts {β : Type} {g : List Move → β → List Move} {P : Move → Prop}
    (hg : ∀ ms d m, m ∈ g ms d → m ∈ ms ∨ P m) :
    ∀ (ds : List β) (ms : List Move) (m : Move),
      m ∈ ds.foldl g ms → m ∈ ms ∨ P m := by
  intro ds
  induction ds with
  | nil => intro ms m hm; exact Or.inl hm
  | cons d ds ih =>
    intro ms m hm
    rw [List.foldl_cons] at hm
    rcases ih _ _ hm with h | h
    · exact hg _ _ _ h
    · exact Or.inr h

theorem dir_fold_facts {b : Board} {p : Piece} {sq : Square}
    {ds : List (Int × Int)} {ms : List Move} {m : Move}
    (hm : m ∈ ds.foldl (fun ms d => generate_directional_moves b p sq d.1 d.2 ms) ms) :
    m ∈ ms ∨ NonCastleFact b p sq m := by
  refine foldl_facts ?_ ds ms m hm
  intro ms d m hmem
  exact gen_dir_go_facts hmem

theorem probe_fold_facts {b : Board} {p : Piece} {sq : Square}
    {ds : List (Int × Int)} {ms : List Move} {m : Move}
    (hm : m ∈ ds.foldl (fun ms d => (probe_move b p sq d.1 d.2 ms).1) ms) :
    m ∈ ms ∨ NonCastleFact b p sq m := by
  refine foldl_facts ?_ ds ms m hm
  intro ms d m hmem
  exact probe_move_facts hmem


theorem generate_pawn_move_facts {b : Board} {p : Piece} {f t : Square}
    {cap : Option PieceOnBoard} {ms : List Move} {m : Move}
    (hm : m ∈ generate_pawn_move b p f t cap ms) :
    m ∈ ms ∨ (m.from' = f ∧ m.to' = t ∧ m.piece_kind = PieceKind.Pawn ∧
      m.capture = cap ∧ m.en_passant_before = b.en_passant ∧
      m.castle_rights_before = b.castle_rights ∧ m.castle = none ∧
      m.en_passant_after = none) := by
  unfold generate_pawn_move at hm
  split at hm <;> cases cap <;> dsimp only at hm <;>
    rw [List.mem_append] at hm <;>
    rcases hm with hm | hm <;>
    first
    | exact Or.inl hm
    | (simp only [List.mem_singleton, List.mem_cons, List.not_mem_nil,
        or_false] at hm
       rcases hm with rfl | rfl | rfl | rfl <;>
         exact Or.inr ⟨rfl, rfl, rfl, rfl, rfl, rfl, rfl, rfl⟩)

theorem pawn_capture_at_facts {b : Board} {p : Piece} {sq : Square} {fd : Int}
    {ms out : List Move} {m : Move} (hp : p.kind = PieceKind.Pawn)
    (h : pawn_capture_at b p sq fd ms = some out) (hm : m ∈ out) :
    m ∈ ms ∨ NonCastleFact b p sq m ∨ EPFact b p sq m := by
  unfold pawn_capture_at at h
  dsimp only at h
  have hMfact : ∀ x, x ∈ (match b.piece_at (sq.delta fd p.color.forward) with
      | some tp =>
        if tp.color ≠ p.color then
          generate_pawn_move b p sq (sq.delta fd p.color.forward)
            (some (tp, sq.delta fd p.color.forward)) ms
        else ms
      | none => ms) → x ∈ ms ∨ NonCastleFact b p sq x := by
    intro x hx
    cases hd : b.piece_at (sq.delta fd p.color.forward) <;> rw [hd] at hx
    · exact Or.inl hx
    · dsimp only at hx
      split at hx
      · rename_i hc
        rcases generate_pawn_move_facts hx with h1 | ⟨h1, h2, h3, h4, h5, h6, h7, h8⟩
        · exact Or.inl h1
        · right
          refine ⟨h1, h3.trans hp.symm, h5, h6, h7, Or.inr h3,
            Or.inr ⟨_, h4, ?_, ?_, ?_⟩⟩
          · exact h2.symm
          · rw [h2]; exact hd
          · exact hc
      · exact Or.inl hx
  split at h
  · rename_i hep
    cases hep2 : b.piece_at (sq.delta fd 0) <;> rw [hep2] at h
    · exact absurd h (by simp)
    · rw [Option.some_inj] at h
      subst h
      rw [List.mem_append] at hm
      rcases hm with hm | hm
      · rcases hMfact m hm with h1 | h1
        · exact Or.inl h1
        · exact Or.inr (Or.inl h1)
      · rw [List.mem_singleton] at hm
        subst hm
        refine Or.inr (Or.inr ⟨rfl, hp ▸ rfl, rfl, rfl, rfl, rfl, hep, _, rfl, ?_,
          hep2⟩)
        show sq.delta fd 0 = ⟨(sq.delta fd p.color.forward).x,
          (sq.delta fd p.color.forward).y - p.color.forward⟩
        unfold Square.delta
        rw [Square.mk.injEq]
        constructor <;> ring
  · rw [Option.some_inj] at h
    subst h
    rcases hMfact m hm with h1 | h1
    · exact Or.inl h1
    · exact Or.inr (Or.inl h1)

theorem pawn_moves_facts {b : Board} {p : Piece} {sq : Square}
    {bs : List Move} {m : Move} (hp : p.kind = PieceKind.Pawn)
    (h : pawn_moves b p sq [] = some bs) (hm : m ∈ bs) :
    NonCastleFact b p sq m ∨ EPFact b p sq m := by
  unfold pawn_moves at h
  dsimp only at h
  rw [Option.bind_eq_some] at h
  obtain ⟨m2, h1, h2⟩ := h
  have hM1 : ∀ x, x ∈ (if ¬ b.has_piece_at (sq.delta 0 p.color.forward) ∧
        (sq.delta 0 p.color.forward).is_on_board then
        if sq.rank = p.color.home_rank ∧
            ¬ b.has_piece_at (sq.delta 0 (p.color.forward * 2)) ∧
            (sq.delta 0 (p.color.forward * 2)).is_on_board then
          generate_pawn_move b p sq (sq.delta 0 p.color.forward) none [] ++
            [Move.from_to_en_passant b sq (sq.delta 0 (p.color.forward * 2))
              (sq.delta 0 p.color.forward)]
        else generate_pawn_move b p sq (sq.delta 0 p.color.forward) none []
      else ([] : List Move)) → NonCastleFact b p sq x := by
    intro x hx
    split at hx
    · rename_i hpush
      have hfree := hpush.1
      rw [Bool.not_eq_true] at hfree
      have hob := hpush.2
      have hgpm : x ∈ generate_pawn_move b p sq (sq.delta 0 p.color.forward) none [] →
          NonCastleFact b p sq x := by
        intro hg
        rcases generate_pawn_move_facts hg with h1 | ⟨h1, h2, h3, h4, h5, h6, h7, h8⟩
        · exact absurd h1 (List.not_mem_nil x)
        · exact ⟨h1, h3.trans hp.symm, h5, h6, h7, Or.inr h3,
            Or.inl ⟨h4, h2 ▸ hfree, h2 ▸ hob⟩⟩
      split at hx
      · rename_i hdbl
        have hfree2 := hdbl.2.1
        rw [Bool.not_eq_true] at hfree2
        rw [List.mem_append] at hx
        rcases hx with hx | hx
        · exact hgpm hx
        · rw [List.mem_singleton] at hx
          subst hx
          exact ⟨rfl, hp ▸ rfl, rfl, rfl, rfl, Or.inl rfl,
            Or.inl ⟨rfl, hfree2, hdbl.2.2⟩⟩
      · exact hgpm hx
    · exact absurd hx (List.not_mem_nil x)
  rcases pawn_capture_at_facts hp h2 hm with hm2 | hf | hf
  · rcases pawn_capture_at_facts hp h1 hm2 with hm1 | hf | hf
    · exact Or.inl (hM1 m hm1)
    · exact Or.inl hf
    · exact Or.inr hf
  · exact Or.inl hf
  · exact Or.inr hf

theorem castle_moves_facts {b : Board} {p : Piece} {ms : List Move} {m : Move}
    (hm : m ∈ castle_moves b p ms) : m ∈ ms ∨ CastleFact b p m := by
  unfold castle_moves at hm
  dsimp only at hm
  have hM1 : ∀ x, x ∈ (if (b.castle_rights.get_rights p.color).test Castle.KingSide then
        if ¬ b.has_piece_at (Square.at' 5 p.color.back_rank) ∧
            ¬ b.has_piece_at (Square.at' 6 p.color.back_rank) then
          ms ++ [Move.castle' b p.color Castle.KingSide]
        else ms
      else ms) → x ∈ ms ∨ CastleFact b p x := by
    intro x hx
    split at hx
    · rename_i hr
      split at hx
      · rename_i he
        rw [List.mem_append] at hx
        rcases hx with hx | hx
        · exact Or.inl hx
        · rw [List.mem_singleton] at hx
          subst hx
          exact Or.inr ⟨.KingSide, rfl, hr, he⟩
      · exact Or.inl hx
    · exact Or.inl hx
  split at hm
  · rename_i hr
    split at hm
    · rename_i he
      rw [List.mem_append] at hm
      rcases hm with hm | hm
      · exact hM1 m hm
      · rw [List.mem_singleton] at hm
        subst hm
        exact Or.inr ⟨.QueenSide, rfl, hr, he⟩
    · exact hM1 m hm
  · exact hM1 m hm

theorem piece_moves_facts {b : Board} {pb : PieceOnBoard} {bs : List Move}
    {m : Move} (h : piece_moves b pb [] = some bs) (hm : m ∈ bs) :
    pb.1.color = b.side ∧
    (NonCastleFact b pb.1 pb.2 m ∨
     (pb.1.kind = PieceKind.Pawn ∧ EPFact b pb.1 pb.2 m) ∨
     (pb.1.kind = PieceKind.King ∧ CastleFact b pb.1 m)) := by
  unfold piece_moves at h
  split at h
  · rw [Option.some_inj] at h
    subst h
    exact absurd hm (List.not_mem_nil m)
  · rename_i hcol
    refine ⟨not_not.mp hcol, ?_⟩
    cases hk : pb.1.kind <;> rw [hk] at h <;> dsimp only at h
    · rcases pawn_moves_facts hk h hm with hf | hf
      · exact Or.inl hf
      · exact Or.inr (Or.inl ⟨rfl, hf⟩)
    · rw [Option.some_inj] at h
      subst h
      rcases probe_fold_facts hm with h1 | h1
      · exact absurd h1 (List.not_mem_nil m)
      · exact Or.inl h1
    · rw [Option.some_inj] at h
      subst h
      rcases dir_fold_facts hm with h1 | h1
      · exact absurd h1 (List.not_mem_nil m)
      · exact Or.inl h1
    · rw [Option.some_inj] at h
      subst h
      rcases dir_fold_facts hm with h1 | h1
      · exact absurd h1 (List.not_mem_nil m)
      · exact Or.inl h1
    · rw [Option.some_inj] at h
      subst h
      rcases dir_fold_facts hm with h1 | h1
      · rcases dir_fold_facts h1 with h2 | h2
        · exact absurd h2 (List.not_mem_nil m)
        · exact Or.inl h2
      · exact Or.inl h1
    · rw [Option.some_inj] at h
      subst h
      rcases castle_moves_facts hm with h1 | h1
      · rcases probe_fold_facts h1 with h2 | h2
        · exact absurd h2 (List.not_mem_nil m)
        · exact Or.inl h2
      · exact Or.inr (Or.inr ⟨rfl, h1⟩)
    · rw [Option.some_inj] at h
      subst h
      exact absurd hm (List.not_mem_nil m)

theorem generate_moves_facts {b : Board} {ms : List Move} {m : Move}
    (hg : generate_moves b = some ms) (hm : m ∈ ms) :
    ∃ pb ∈ b.piece_list, pb.1.color = b.side ∧
      (NonCastleFact b pb.1 pb.2 m ∨
       (pb.1.kind = PieceKind.Pawn ∧ EPFact b pb.1 pb.2 m) ∨
       (pb.1.kind = PieceKind.King ∧ CastleFact b pb.1 m)) := by
  obtain ⟨pb, hpb, bs, hbs, hmbs⟩ := mem_generate_moves hg hm
  obtain ⟨hside, hf⟩ := piece_moves_facts hbs hmbs
  exact ⟨pb, hpb, hside, hf⟩


theorem mem_of_piece_at {b : Board} {sq : Square} {p : Piece}
    (h : b.piece_at sq = some p) : (p, sq) ∈ b.piece_list := by
  unfold Board.piece_at at h
  cases hf : b.piece_list.find? (fun pb => pb.2 == sq) <;> rw [hf] at h
  · exact absurd h (by simp)
  · rename_i pb
    rw [Option.map_some', Option.some_inj] at h
    have h2a := List.find?_some hf
    have h2 : pb.2 = sq := beq_iff_eq.mp h2a
    have h3 : pb ∈ b.piece_list := List.mem_of_find?_eq_some hf
    have h4 : pb = (p, sq) := by
      rw [Prod.ext_iff]
      exact ⟨h, h2⟩
    rw [← h4]
    exact h3

theorem piece_at_of_mem_aux :
    ∀ (l : List PieceOnBoard) (pb : PieceOnBoard),
      (l.map (fun x => x.2)).Nodup → pb ∈ l →
      (l.find? (fun x => x.2 == pb.2)).map (fun x => x.1) = some pb.1 := by
  intro l
  induction l with
  | nil => intro pb _ hm; exact absurd hm (List.not_mem_nil pb)
  | cons a l ih =>
    intro pb hnd hm
    rw [List.map_cons, List.nodup_cons] at hnd
    rw [List.find?_cons]
    rcases List.mem_cons.mp hm with rfl | hm2
    · rw [beq_self_eq_true]
      rfl
    · cases hcmp : (a.2 == pb.2)
      · exact ih pb hnd.2 hm2
      · have ha2 : a.2 = pb.2 := beq_iff_eq.mp hcmp
        have hmem : pb.2 ∈ l.map (fun x => x.2) := by
          rw [List.mem_map]
          exact ⟨pb, hm2, rfl⟩
        rw [ha2] at hnd
        exact absurd hmem hnd.1

theorem piece_at_of_mem {b : Board} {pb : PieceOnBoard}
    (hd : distinct_squares b) (hp : pb ∈ b.piece_list) :
    b.piece_at pb.2 = some pb.1 :=
  piece_at_of_mem_aux b.piece_list pb hd hp

theorem color_eq_switch_of_ne {c d : Color} (h : c ≠ d) : c = d.switch := by
  cases c <;> cases d <;> simp_all [Color.switch]

/-- Everything the move generator guarantees about an emitted move on a
well-formed board, gathered once: the en-passant snapshot, the mover on
`from`, the free or enemy-occupied destination, and both endpoints on
the board. -/
theorem gen_move_analysis {b : Board} {ms : List Move} {m : Move}
    (hwf : WellFormed b) (hg : generate_moves b = some ms) (hm : m ∈ ms) :
    m.en_passant_before = b.en_passant ∧
    (∃ p, b.piece_at m.from' = some p ∧ p.color = b.side ∧
      p.kind = m.piece_kind) ∧
    (m.capture = none → b.has_piece_at m.to' = false) ∧
    (∀ cap, m.capture = some cap → b.piece_at cap.2 = some cap.1 ∧
      cap.1.color = b.side.switch) ∧
    m.from'.is_on_board = true ∧ m.to'.is_on_board = true := by
  obtain ⟨hd, hob, _, hepb, hepob, _, hkrc, _⟩ := hwf
  obtain ⟨pb, hpb, hside, hf⟩ := generate_moves_facts hg hm
  rcases hf with hf | ⟨hkind, hf⟩ | ⟨hkind, hf⟩
  · obtain ⟨h1, h2, h3, h4, h5, hpr, h6⟩ := hf
    refine ⟨h3, ⟨pb.1, by rw [h1]; exact piece_at_of_mem hd hpb, hside, h2.symm⟩,
      ?_, ?_, by rw [h1]; exact hob pb hpb, ?_⟩
    · intro hnone
      rcases h6 with ⟨_, hfree, _⟩ | ⟨cap, hcap, _⟩
      · exact hfree
      · rw [hnone] at hcap
        exact absurd hcap (by simp)
    · intro cap hcap
      rcases h6 with ⟨hnone, _, _⟩ | ⟨cap2, hcap2, hsq, hat, hcol⟩
      · rw [hcap] at hnone
        exact absurd hnone (by simp)
      · rw [hcap] at hcap2
        rw [Option.some_inj] at hcap2
        subst hcap2
        rw [hsq]
        refine ⟨hat, ?_⟩
        rw [hside] at hcol
        exact color_eq_switch_of_ne hcol
    · rcases h6 with ⟨_, _, htob⟩ | ⟨cap, _, hsq, hat, _⟩
      · exact htob
      · exact hob (cap.1, m.to') (mem_of_piece_at hat)
  · obtain ⟨h1, h2, h3, h4, h5, hpr, hept, cap, hcap, hsq, hat⟩ := hf
    have htob : m.to'.is_on_board = true := by
      unfold ep_on_board at hepob
      rw [hept] at hepob
      exact hepob
    refine ⟨h3, ⟨pb.1, by rw [h1]; exact piece_at_of_mem hd hpb, hside, h2.symm⟩,
      ?_, ?_, by rw [h1]; exact hob pb hpb, htob⟩
    · intro hnone
      rw [hnone] at hcap
      exact absurd hcap (by simp)
    · intro cap2 hcap2
      rw [hcap] at hcap2
      rw [Option.some_inj] at hcap2
      subst hcap2
      refine ⟨hat, ?_⟩
      unfold ep_behind_opponent at hepb
      rw [hept] at hepb
      dsimp only at hepb
      rw [hsq, hside] at hat
      rw [hat] at hepb
      simpa using hepb
  · obtain ⟨s, hcastle, hr, hemp⟩ := hf
    have hpk : pb.1 = PieceKind.King.colored b.side := by
      show Piece.mk pb.1.kind pb.1.color = PieceKind.King.colored b.side
      rw [hkind, hside]
      rfl
    have hkmem : (b.piece_list.any fun x => x.1 == PieceKind.King.colored b.side) = true := by
      rw [List.any_eq_true]
      exact ⟨pb, hpb, by rw [hpk]; exact beq_self_eq_true _⟩
    have hkat : b.piece_at (Square.at' 4 b.side.back_rank) =
        some (PieceKind.King.colored b.side) := by
      have hk2 : king_rights_coherent_at b b.side := by
        cases hbs : b.side
        · exact hkrc.1
        · exact hkrc.2
      refine hk2 ?_ hkmem
      rw [hside] at hr
      cases s
      · exact Or.inl hr
      · exact Or.inr hr
    rw [hside] at hcastle
    subst hcastle
    rw [hside] at hemp
    cases s
    · refine ⟨rfl, ⟨PieceKind.King.colored b.side, hkat, rfl, rfl⟩, ?_, ?_, ?_, ?_⟩
      · intro _
        have := hemp.2
        rw [Bool.not_eq_true] at this
        exact this
      · intro cap hcap
        exact absurd hcap (by simp [Move.castle', Move.from_to])
      · cases hbs : b.side <;> rfl
      · cases hbs : b.side <;> rfl
    · refine ⟨rfl, ⟨PieceKind.King.colored b.side, hkat, rfl, rfl⟩, ?_, ?_, ?_, ?_⟩
      · intro _
        have := hemp.2.1
        rw [Bool.not_eq_true] at this
        exact this
      · intro cap hcap
        exact absurd hcap (by simp [Move.castle', Move.from_to])
      · cases hbs : b.side <;> rfl
      · cases hbs : b.side <;> rfl


theorem castle_mem_castle_moves {b : Board} {p : Piece} {ms : List Move}
    {s : Castle} (hr : (b.castle_rights.get_rights p.color).test s = true)
    (he : castle_squares_empty b p.color s) :
    Move.castle' b p.color s ∈ castle_moves b p ms := by
  unfold castle_moves
  dsimp only
  cases s
  · have he2 : ¬ b.has_piece_at (Square.at' 5 p.color.back_rank) ∧
        ¬ b.has_piece_at (Square.at' 6 p.color.back_rank) := he
    rw [if_pos hr, if_pos he2]
    split
    · split
      · exact List.mem_append.mpr (Or.inl (List.mem_append.mpr (Or.inr (by simp))))
      · exact List.mem_append.mpr (Or.inr (by simp))
    · exact List.mem_append.mpr (Or.inr (by simp))
  · have he2 : ¬ b.has_piece_at (Square.at' 3 p.color.back_rank) ∧
        ¬ b.has_piece_at (Square.at' 2 p.color.back_rank) ∧
        ¬ b.has_piece_at (Square.at' 1 p.color.back_rank) := he
    rw [if_pos hr, if_pos he2]
    exact List.mem_append.mpr (Or.inr (by simp))

theorem king_piece_moves {b : Board} {sq : Square} :
    piece_moves b (PieceKind.King.colored b.side, sq) [] =
      some (castle_moves b (PieceKind.King.colored b.side)
        (KING_DIRECTIONS.foldl (fun ms d =>
          (probe_move b (PieceKind.King.colored b.side) sq d.1 d.2 ms).1) [])) := by
  unfold piece_moves
  rw [if_neg (fun h => h rfl)]
  rfl

/-- C6: with a king of the side to move on the board, a castle move for
castle side `s` is generated exactly when the corresponding right is
granted and the intervening back-rank squares are free. -/
theorem castle_gating {b : Board} {ms : List Move} {s : Castle}
    (hg : generate_moves b = some ms)
    (hk : ∃ sq, (PieceKind.King.colored b.side, sq) ∈ b.piece_list) :
    (∃ m ∈ ms, m.castle = some s) ↔
      ((b.castle_rights.get_rights b.side).test s = true ∧
        castle_squares_empty b b.side s) := by
  constructor
  · rintro ⟨m, hm, hcs⟩
    obtain ⟨pb, hpb, hside, hf⟩ := generate_moves_facts hg hm
    rcases hf with hf | ⟨_, hf⟩ | ⟨hkind, hf⟩
    · rw [hf.2.2.2.2.1] at hcs
      exact absurd hcs (by simp)
    · rw [hf.2.2.2.2.1] at hcs
      exact absurd hcs (by simp)
    · obtain ⟨s2, hc2, hr2, he2⟩ := hf
      have hcs2 : m.castle = some s2 := by rw [hc2]; rfl
      rw [hcs] at hcs2
      rw [Option.some_inj] at hcs2
      subst hcs2
      rw [hside] at hr2 he2
      exact ⟨hr2, he2⟩
  · rintro ⟨hr, he⟩
    obtain ⟨sq, hpb⟩ := hk
    refine ⟨Move.castle' b b.side s,
      mem_generate_moves_of_piece hg hpb king_piece_moves
        (castle_mem_castle_moves (p := PieceKind.King.colored b.side) hr he), rfl⟩

theorem castle_gating_witness :
    ∃ ms, generate_moves board_castle = some ms ∧
      ((∃ m ∈ ms, m.castle = some Castle.KingSide) ↔
        ((board_castle.castle_rights.get_rights board_castle.side).test
            Castle.KingSide = true ∧
          castle_squares_empty board_castle board_castle.side Castle.KingSide)) := by
  cases hg : generate_moves board_castle with
  | none => exact absurd hg (by decide)
  | some ms => exact ⟨ms, rfl, castle_gating hg ⟨Square.at' 4 0, by decide⟩⟩

/-- C9 (amended): on a well-formed board every generated move meets
`apply_move`'s preconditions. -/
theorem gen_moves_meet_apply_preconditions {b : Board} {ms : List Move}
    {m : Move} (hwf : WellFormed b) (hg : generate_moves b = some ms)
    (hm : m ∈ ms) :
    m.en_passant_before = b.en_passant ∧
    (∃ p, b.piece_at m.from' = some p ∧ p.color = b.side ∧
      p.kind = m.piece_kind) ∧
    (m.capture = none → b.has_piece_at m.to' = false) ∧
    (∀ cap, m.capture = some cap → b.piece_at cap.2 = some cap.1 ∧
      cap.1.color = b.side.switch) := by
  obtain ⟨h1, h2, h3, h4, _, _⟩ := gen_move_analysis hwf hg hm
  exact ⟨h1, h2, h3, h4⟩

theorem gen_moves_meet_apply_preconditions_witness :
    WellFormed board_pawn ∧
    ∃ ms m, generate_moves board_pawn = some ms ∧ m ∈ ms ∧
      (m.en_passant_before = board_pawn.en_passant ∧
       (∃ p, board_pawn.piece_at m.from' = some p ∧ p.color = board_pawn.side ∧
         p.kind = m.piece_kind) ∧
       (m.capture = none → board_pawn.has_piece_at m.to' = false) ∧
       (∀ cap, m.capture = some cap → board_pawn.piece_at cap.2 = some cap.1 ∧
         cap.1.color = board_pawn.side.switch)) := by
  refine ⟨by decide, ?_⟩
  cases hg : generate_moves board_pawn with
  | none => exact absurd hg (by decide)
  | some ms =>
    cases ms with
    | nil => exact absurd hg (by decide)
    | cons m rest =>
      exact ⟨m :: rest, m, rfl, List.mem_cons_self m rest,
        gen_moves_meet_apply_preconditions (by decide) hg
          (List.mem_cons_self m rest)⟩

/-- C10 (amended): on a well-formed board every generated move stays on
the board and only captures opposing pieces. -/
theorem gen_moves_on_board {b : Board} {ms : List Move} {m : Move}
    (hwf : WellFormed b) (hg : generate_moves b = some ms) (hm : m ∈ ms) :
    m.from'.is_on_board = true ∧ m.to'.is_on_board = true ∧
    (∀ cap, m.capture = some cap → cap.1.color = b.side.switch) := by
  obtain ⟨_, _, _, h4, h5, h6⟩ := gen_move_analysis hwf hg hm
  exact ⟨h5, h6, fun cap hc => (h4 cap hc).2⟩

theorem gen_moves_on_board_witness :
    WellFormed board_castle ∧
    ∃ ms m, generate_moves board_castle = some ms ∧ m ∈ ms ∧
      (m.from'.is_on_board = true ∧ m.to'.is_on_board = true ∧
       (∀ cap, m.capture = some cap → cap.1.color = board_castle.side.switch)) := by
  refine ⟨by decide, ?_⟩
  cases hg : generate_moves board_castle with
  | none => exact absurd hg (by decide)
  | some ms =>
    cases ms with
    | nil => exact absurd hg (by decide)
    | cons m rest =>
      exact ⟨m :: rest, m, rfl, List.mem_cons_self m rest,
        gen_moves_on_board (by decide) hg (List.mem_cons_self m rest)⟩

/-
Helper lemmas: definitional unfoldings of the search procedures, stated
generically so rewriting never forces evaluation of a concrete search.
-/

/-- Unfold `alpha_beta_value` at a White-to-move board. -/
theorem alpha_beta_value_white (b : Board) (d : Nat) (h : b.side = .White) :
    alpha_beta_value b d = (alpha_beta_max b (-fMAX) fMAX d 0).map (fun r => r.1) := by
  unfold alpha_beta_value ABEvaluator.evaluate ABEvaluator.create
  rw [h]
  cases alpha_beta_max b (-fMAX) fMAX d 0 <;> rfl

/-- Unfold `alpha_beta_value` at a Black-to-move board. -/
theorem alpha_beta_value_black (b : Board) (d : Nat) (h : b.side = .Black) :
    alpha_beta_value b d = (alpha_beta_min b (-fMAX) fMAX d 0).map (fun r => r.1) := by
  unfold alpha_beta_value ABEvaluator.evaluate ABEvaluator.create
  rw [h]
  cases alpha_beta_min b (-fMAX) fMAX d 0 <;> rfl

/-- One-step unfolding of `alpha_beta_max` at positive remaining depth. -/
theorem alpha_beta_max_succ (b : Board) (alpha beta : Int) (r n : Nat) :
    alpha_beta_max b alpha beta (r + 1) n =
      (generate_moves b).bind fun ms =>
        if ms.isEmpty then some (static_evaluation b, b, n + 1)
        else
          ab_max_loop (fun b1 a1 b1' n1 => alpha_beta_min b1 a1 b1' r n1)
            ms b alpha beta none (n + 1) := rfl

/-- One-step unfolding of `alpha_beta_min` at positive remaining depth. -/
theorem alpha_beta_min_succ (b : Board) (alpha beta : Int) (r n : Nat) :
    alpha_beta_min b alpha beta (r + 1) n =
      (generate_moves b).bind fun ms =>
        if ms.isEmpty then some (static_evaluation b, b, n + 1)
        else
          ab_min_loop (fun b1 a1 b1' n1 => alpha_beta_max b1 a1 b1' r n1)
            ms b alpha beta none (n + 1) := rfl

/-- One-step unfolding of the `alpha_beta_max` move loop. -/
theorem ab_max_loop_cons (child : Board → Int → Int → Nat → Option (Int × Board × Nat))
    (m : Move) (rest : List Move) (b : Board) (alpha beta : Int)
    (best : Option Int) (n : Nat) :
    ab_max_loop child (m :: rest) b alpha beta best n =
      (b.apply_move m).bind fun b1 =>
      (child b1 alpha beta n).bind fun res =>
      (res.2.1.revert_move m).bind fun b3 =>
      if res.1 ≥ beta then some (res.1, b3, res.2.2)
      else
        ab_max_loop child rest b3 (if res.1 > alpha then res.1 else alpha) beta
          (match best with
           | none => some res.1
           | some x => if res.1 > x then some res.1 else some x) res.2.2 := rfl

/-- Terminal case of the `alpha_beta_max` move loop. -/
theorem ab_max_loop_nil (child : Board → Int → Int → Nat → Option (Int × Board × Nat))
    (b : Board) (alpha beta : Int) (best : Option Int) (n : Nat) :
    ab_max_loop child [] b alpha beta best n =
      (match best with
       | some x => some (x, b, n)
       | none => none) := rfl

/-- One-step unfolding of the `alpha_beta_min` move loop. -/
theorem ab_min_loop_cons (child : Board → Int → Int → Nat → Option (Int × Board × Nat))
    (m : Move) (rest : List Move) (b : Board) (alpha beta : Int)
    (best : Option Int) (n : Nat) :
    ab_min_loop child (m :: rest) b alpha beta best n =
      (b.apply_move m).bind fun b1 =>
      (child b1 alpha beta n).bind fun res =>
      (res.2.1.revert_move m).bind fun b3 =>
      if res.1 ≤ alpha then some (res.1, b3, res.2.2)
      else
        ab_min_loop child rest b3 alpha (if res.1 < beta then res.1 else beta)
          (match best with
           | none => some res.1
           | some x => if res.1 < x then some res.1 else some x) res.2.2 := rfl

/-- Terminal case of the `alpha_beta_min` move loop. -/
theorem ab_min_loop_nil (child : Board → Int → Int → Nat → Option (Int × Board × Nat))
    (b : Board) (alpha beta : Int) (best : Option Int) (n : Nat) :
    ab_min_loop child [] b alpha beta best n =
      (match best with
       | some x => some (x, b, n)
       | none => none) := rfl

/-- C4: `Board::apply_move` aborts (returns `none`, the model of the
fatal assertion) whenever the move's en-passant snapshot differs from
the board's en-passant target, and, when the move carries no capture,
whenever some piece already occupies the destination square. -/
theorem apply_move_asserts (b : Board) (m : Move)
    (h : m.en_passant_before ≠ b.en_passant ∨
      (m.capture = none ∧ b.has_piece_at m.to' = true)) :
    b.apply_move m = none := by
  unfold Board.apply_move
  rcases h with h | ⟨hc, ht⟩
  · simp [h]
  · rw [hc]
    simp [ht]

/-- Witness for `apply_move_asserts`: a move with a stale en-passant
snapshot is refused on the lone-pawn board. -/
theorem apply_move_asserts_witness : board_pawn.apply_move move_c4 = none :=
  apply_move_asserts board_pawn move_c4 (Or.inl (by decide))

/-- C7 (amended): `is_check` returns true when an opposing pawn stands
on a square reached from the king's square by one diagonal step in the
king's own color's forward direction. -/
theorem is_check_pawn (b : Board) (c : Color) (sq : Square) (xd : Int)
    (hxd : xd = -1 ∨ xd = 1) (hk : b.king_square c = some sq)
    (hp : b.piece_at (sq.delta xd c.forward) = some (PieceKind.Pawn.colored c.switch)) :
    is_check b c = true := by
  have hd : (([-1, 1] : List Int).any fun x =>
      b.piece_at (sq.delta x c.forward) == some (PieceKind.Pawn.colored c.switch)) = true := by
    refine List.any_eq_true.mpr ⟨xd, ?_, ?_⟩
    · rcases hxd with h | h <;> subst h <;> simp
    · rw [hp]
      simp
  unfold is_check
  rw [hk]
  simp [hd]

/-- Counterexample to C7 as stated: on `board_c7` a black pawn stands on
the square reached from the white king by one diagonal step in the
opposing color's (Black's) forward direction, yet `is_check` is false. -/
theorem is_check_pawn_cex :
    board_c7.king_square .White = some (Square.at' 4 4) ∧
    board_c7.piece_at ((Square.at' 4 4).delta 1 Color.White.switch.forward) =
      some (PieceKind.Pawn.colored Color.White.switch) ∧
    is_check board_c7 .White = false := by decide

/-- Witness for `is_check_pawn`: the pawn on (5, 5) checks the white
king on (4, 4). -/
theorem is_check_pawn_witness : is_check board_c7b .White = true :=
  is_check_pawn board_c7b .White (Square.at' 4 4) 1 (Or.inr rfl) (by decide) (by decide)

/-- C8: after `AlphaBetaEvaluator::evaluate` returns, the evaluator's
best line is empty: the alpha-beta path never populates it. -/
theorem ab_best_line_empty (ev : ABEvaluator) (b : Board) (v : Int)
    (ev' : ABEvaluator) (b' : Board) (h : ev.evaluate b = some (v, ev', b')) :
    ev'.get_best_line = [] := by
  unfold ABEvaluator.evaluate at h
  cases hb : b.side <;> rw [hb] at h <;>
    [cases hab : alpha_beta_max b (-fMAX) fMAX ev.max_depth ev.node_count;
     cases hab : alpha_beta_min b (-fMAX) fMAX ev.max_depth ev.node_count] <;>
    rw [hab] at h <;> simp at h <;>
    obtain ⟨-, h2, -⟩ := h <;>
    rw [← h2] <;> rfl

set_option maxRecDepth 4000 in
/-- Witness for `ab_best_line_empty` on the lone-pawn board at depth
one. -/
theorem ab_best_line_empty_witness :
    ABEvaluator.get_best_line
      { node_count := 3, best_line := [], max_depth := 1 } = [] :=
  ab_best_line_empty (ABEvaluator.create 1) board_pawn 1
    { node_count := 3, best_line := [], max_depth := 1 } board_pawn (by decide)

/-- C5: a pawn move whose destination lies on the mover's promotion rank
is expanded by `generate_pawn_move` into exactly four moves appended to
the accumulator, promoting to Knight, Bishop, Rook and Queen in that
order, each carrying the given from/to squares and capture (so the
expansion is identical for plain and capturing pawn moves). -/
theorem promotion_expansion (b : Board) (p : Piece) (f t : Square)
    (cap : Option PieceOnBoard) (moves : List Move)
    (h : t.rank = p.color.promotion_rank) :
    generate_pawn_move b p f t cap moves =
      moves ++ (generate_pawn_move b p f t cap moves).drop moves.length ∧
    ((generate_pawn_move b p f t cap moves).drop moves.length).map
        (fun m => m.promotion) =
      [some .Knight, some .Bishop, some .Rook, some .Queen] ∧
    ∀ m' ∈ (generate_pawn_move b p f t cap moves).drop moves.length,
      m'.from' = f ∧ m'.to' = t ∧ m'.capture = cap ∧ m'.piece_kind = .Pawn := by
  unfold generate_pawn_move
  rw [if_pos h]
  rcases cap with _ | c <;>
    refine ⟨by rw [List.drop_left], ?_, ?_⟩ <;>
    rw [List.drop_left]
  · simp [Move.promotion', Move.from_to]
  · intro m' hm'
    simp only [List.mem_cons, List.not_mem_nil, or_false] at hm'
    rcases hm' with rfl | rfl | rfl | rfl <;>
      simp [Move.promotion', Move.from_to]
  · simp [Move.promotion_capture, Move.from_to]
  · intro m' hm'
    simp only [List.mem_cons, List.not_mem_nil, or_false] at hm'
    rcases hm' with rfl | rfl | rfl | rfl <;>
      simp [Move.promotion_capture, Move.from_to]

/-- Witness for `promotion_expansion`: a white pawn stepping from (1, 6)
to (1, 7). -/
theorem promotion_expansion_witness :
    generate_pawn_move board_pawn (PieceKind.Pawn.colored .White)
        (Square.at' 1 6) (Square.at' 1 7) none [] =
      [] ++ (generate_pawn_move board_pawn (PieceKind.Pawn.colored .White)
        (Square.at' 1 6) (Square.at' 1 7) none []).drop (List.length ([] : List Move)) ∧
    ((generate_pawn_move board_pawn (PieceKind.Pawn.colored .White)
        (Square.at' 1 6) (Square.at' 1 7) none []).drop (List.length ([] : List Move))).map
        (fun m => m.promotion) =
      [some .Knight, some .Bishop, some .Rook, some .Queen] ∧
    ∀ m' ∈ (generate_pawn_move board_pawn (PieceKind.Pawn.colored .White)
        (Square.at' 1 6) (Square.at' 1 7) none []).drop (List.length ([] : List Move)),
      m'.from' = Square.at' 1 6 ∧ m'.to' = Square.at' 1 7 ∧
        m'.capture = none ∧ m'.piece_kind = .Pawn :=
  promotion_expansion board_pawn (PieceKind.Pawn.colored .White)
    (Square.at' 1 6) (Square.at' 1 7) none [] (by decide)

set_option maxHeartbeats 2000000 in
/-- C3: `Move::castle_rights_after` strips both of the moving side's
rights on a King move; strips exactly the king-side (resp. queen-side)
right of the mover when a Rook moved from file 7 (resp. file 0) of the
mover's back rank; strips the opponent's king-side (resp. queen-side)
right when the capture square is file 7 (resp. file 0) of the opponent's
back rank; and changes no other right. -/
theorem castle_rights_after_spec (m : Move) (s : Color) :
    ((m.castle_rights_after s).get_rights s).king_side =
      (if m.piece_kind = .King then false
       else if m.piece_kind = .Rook ∧ m.from' = Square.at' 7 s.back_rank then false
       else (m.castle_rights_before.get_rights s).king_side) ∧
    ((m.castle_rights_after s).get_rights s).queen_side =
      (if m.piece_kind = .King then false
       else if m.piece_kind = .Rook ∧ m.from' = Square.at' 0 s.back_rank then false
       else (m.castle_rights_before.get_rights s).queen_side) ∧
    ((m.castle_rights_after s).get_rights s.switch).king_side =
      (if (m.capture.any fun cap => cap.2 == Square.at' 7 s.switch.back_rank) = true
       then false
       else (m.castle_rights_before.get_rights s.switch).king_side) ∧
    ((m.castle_rights_after s).get_rights s.switch).queen_side =
      (if (m.capture.any fun cap => cap.2 == Square.at' 0 s.switch.back_rank) = true
       then false
       else (m.castle_rights_before.get_rights s.switch).queen_side) := by
  obtain ⟨f, t, pk, cap, epb, epa, crb, cas, promo⟩ := m
  cases s <;> cases pk <;> rcases cap with _ | cap <;>
    simp only [Move.castle_rights_after, BoardCastleRights.set_rights,
      BoardCastleRights.set_king_side, BoardCastleRights.set_queen_side,
      BoardCastleRights.get_rights, ColorCastleRights.none', Color.switch,
      Color.back_rank, Option.any, Option.any_some, Option.any_none] <;>
    split_ifs <;> simp_all

/-- Counterexample to C1 as stated: on `board_c1` (whose en-passant
target square is occupied) the generated en-passant capture `move_c1`
applies and reverts without any assertion firing, yet the round trip is
not semantically equal to the original board. -/
theorem round_trip_cex :
    (generate_moves board_c1).bind (fun ms => ms[2]?) = some move_c1 ∧
    (board_c1.apply_move move_c1).bind (fun b1 => b1.revert_move move_c1) =
      some board_c1_rt ∧
    board_c1_rt.semantic_eq board_c1 = false := by decide

/-- Counterexample to C9 as stated: on `board_c9` (a lone white king on
(3, 3) with a dangling king-side right) `generate_moves` emits the
castle move `move_c9` whose from-square (4, 0) holds no piece at all. -/
theorem gen_precondition_cex :
    (generate_moves board_c9).bind (fun ms => ms[8]?) = some move_c9 ∧
    board_c9.piece_at move_c9.from' = none ∧
    (board_c9.piece_list.all fun pb => !(pb.2 == move_c9.from')) = true := by decide

/-- Counterexample to C10 as stated: on `board_c10` the knight standing
off the board generates `move_c10` whose from-square is off the
board. -/
theorem gen_on_board_cex :
    (generate_moves board_c10).bind (fun ms => ms[0]?) = some move_c10 ∧
    move_c10.from'.is_on_board = false := by decide

set_option maxRecDepth 4000 in
/-- Counterexample to C2 as stated: on `board_c2` (a dangling black
king-side castle right with the black king displaced) minimax aborts on
the unapplicable castle reply, while alpha-beta prunes past it and
returns an evaluation: the two searches do not return the same value. -/
theorem search_equivalence_cex :
    minimax_value board_c2 2 = none ∧ alpha_beta_value board_c2 2 = some 0 := by
  constructor
  · decide
  · have hg : generate_moves board_c2 = some
        [move_c2 (Square.at' 6 7), move_c2 (Square.at' 4 7), move_c2 (Square.at' 5 6),
         move_c2 (Square.at' 4 6), move_c2 (Square.at' 6 6)] := by decide
    have ha1 : board_c2.apply_move (move_c2 (Square.at' 6 7)) =
        some (board_c2_child (Square.at' 6 7)) := by decide
    have hm1 : alpha_beta_min (board_c2_child (Square.at' 6 7)) (-fMAX) fMAX 1 1 =
        some (0, board_c2_child (Square.at' 6 7), 5) := by decide
    have hr1 : (board_c2_child (Square.at' 6 7)).revert_move (move_c2 (Square.at' 6 7)) =
        some board_c2 := by decide
    have ha2 : board_c2.apply_move (move_c2 (Square.at' 4 7)) =
        some (board_c2_child (Square.at' 4 7)) := by decide
    have hm2 : alpha_beta_min (board_c2_child (Square.at' 4 7)) 0 fMAX 1 5 =
        some (0, board_c2_child (Square.at' 4 7), 7) := by decide
    have hr2 : (board_c2_child (Square.at' 4 7)).revert_move (move_c2 (Square.at' 4 7)) =
        some board_c2 := by decide
    have ha3 : board_c2.apply_move (move_c2 (Square.at' 5 6)) =
        some (board_c2_child (Square.at' 5 6)) := by decide
    have hm3 : alpha_beta_min (board_c2_child (Square.at' 5 6)) 0 fMAX 1 7 =
        some (0, board_c2_child (Square.at' 5 6), 9) := by decide
    have hr3 : (board_c2_child (Square.at' 5 6)).revert_move (move_c2 (Square.at' 5 6)) =
        some board_c2 := by decide
    have ha4 : board_c2.apply_move (move_c2 (Square.at' 4 6)) =
        some (board_c2_child (Square.at' 4 6)) := by decide
    have hm4 : alpha_beta_min (board_c2_child (Square.at' 4 6)) 0 fMAX 1 9 =
        some (0, board_c2_child (Square.at' 4 6), 11) := by decide
    have hr4 : (board_c2_child (Square.at' 4 6)).revert_move (move_c2 (Square.at' 4 6)) =
        some board_c2 := by decide
    have ha5 : board_c2.apply_move (move_c2 (Square.at' 6 6)) =
        some (board_c2_child (Square.at' 6 6)) := by decide
    have hm5 : alpha_beta_min (board_c2_child (Square.at' 6 6)) 0 fMAX 1 11 =
        some (0, board_c2_child (Square.at' 6 6), 13) := by decide
    have hr5 : (board_c2_child (Square.at' 6 6)).revert_move (move_c2 (Square.at' 6 6)) =
        some board_c2 := by decide
    have hfge : ¬ ((0 : Int) ≥ fMAX) := by decide
    have hfgt : (0 : Int) > -fMAX := by decide
    have hngt : ¬ ((0 : Int) > 0) := by decide
    rw [alpha_beta_value_white board_c2 2 rfl]
    rw [show (2 : Nat) = 1 + 1 from rfl, alpha_beta_max_succ, hg]
    rw [Option.some_bind]
    rw [if_neg (by simp)]
    rw [ab_max_loop_cons, ha1, Option.some_bind, hm1, Option.some_bind, hr1,
      Option.some_bind, if_neg hfge, if_pos hfgt]
    rw [ab_max_loop_cons, ha2, Option.some_bind, hm2, Option.some_bind, hr2,
      Option.some_bind, if_neg hfge, if_neg hngt]
    rw [ab_max_loop_cons, ha3, Option.some_bind, hm3, Option.some_bind, hr3,
      Option.some_bind, if_neg hfge, if_neg hngt]
    rw [ab_max_loop_cons, ha4, Option.some_bind, hm4, Option.some_bind, hr4,
      Option.some_bind, if_neg hfge, if_neg hngt]
    rw [ab_max_loop_cons, ha5, Option.some_bind, hm5, Option.some_bind, hr5,
      Option.some_bind, if_neg hfge, if_neg hngt]
    rw [ab_max_loop_nil]
    rfl

theorem insertionSort_eq_of_perm {l1 l2 : List PieceOnBoard} (h : l1.Perm l2) :
    l1.insertionSort pob_le = l2.insertionSort pob_le :=
  List.eq_of_perm_of_sorted
    ((List.perm_insertionSort pob_le l1).trans
      (h.trans (List.perm_insertionSort pob_le l2).symm))
    (List.sorted_insertionSort pob_le l1)
    (List.sorted_insertionSort pob_le l2)

theorem semantic_eq_of_perm {b1 b2 : Board} (hs : b1.side = b2.side)
    (he : b1.en_passant = b2.en_passant)
    (hc : b1.castle_rights = b2.castle_rights)
    (hp : b1.piece_list.Perm b2.piece_list) : b1.semantic_eq b2 = true := by
  unfold Board.semantic_eq
  rw [if_neg]
  · rw [insertionSort_eq_of_perm hp]
    simp
  · push_neg
    exact ⟨hs, he, hc⟩

theorem unique_square {l : List PieceOnBoard} (hd : (l.map fun x => x.2).Nodup)
    {p1 p2 : PieceOnBoard} (h1 : p1 ∈ l) (h2 : p2 ∈ l) (hsq : p1.2 = p2.2) :
    p1 = p2 := by
  induction l with
  | nil => exact absurd h1 (List.not_mem_nil p1)
  | cons a rest ih =>
    rw [List.map_cons, List.nodup_cons] at hd
    rcases List.mem_cons.mp h1 with rfl | h1m
    · rcases List.mem_cons.mp h2 with rfl | h2m
      · rfl
      · exfalso
        apply hd.1
        rw [hsq]
        exact List.mem_map.mpr ⟨p2, h2m, rfl⟩
    · rcases List.mem_cons.mp h2 with rfl | h2m
      · exfalso
        apply hd.1
        rw [← hsq]
        exact List.mem_map.mpr ⟨p1, h1m, rfl⟩
      · exact ih hd.2 h1m h2m

theorem not_mem_eraseIdx_nodup {α : Type} :
    ∀ {l : List α} {i : Nat} {e : α}, l.Nodup → l[i]? = some e →
      e ∉ l.eraseIdx i := by
  intro l
  induction l with
  | nil => intro i e _ h; simp at h
  | cons a rest ih =>
    intro i e hnd h
    rw [List.nodup_cons] at hnd
    cases i with
    | zero =>
      rw [List.getElem?_cons_zero, Option.some_inj] at h
      subst h
      rw [List.eraseIdx_cons_zero]
      exact hnd.1
    | succ i =>
      rw [List.getElem?_cons_succ] at h
      rw [List.eraseIdx_cons_succ]
      intro hmem
      rcases List.mem_cons.mp hmem with rfl | hmem2
      · exact hnd.1 (List.getElem?_mem h)
      · exact ih hnd.2 h hmem2

theorem perm_eraseIdx_append {α : Type} :
    ∀ {l : List α} {i : Nat} {e : α}, l[i]? = some e →
      l.Perm (l.eraseIdx i ++ [e]) := by
  intro l
  induction l with
  | nil => intro i e h; simp at h
  | cons a rest ih =>
    intro i e h
    cases i with
    | zero =>
      rw [List.getElem?_cons_zero, Option.some_inj] at h
      subst h
      rw [List.eraseIdx_cons_zero]
      exact (List.perm_append_singleton a rest).symm
    | succ i =>
      rw [List.getElem?_cons_succ] at h
      rw [List.eraseIdx_cons_succ, List.cons_append]
      exact (ih h).cons a

theorem mem_of_mem_eraseIdx {α : Type} {l : List α} {i : Nat} {x : α}
    (h : x ∈ l.eraseIdx i) : x ∈ l :=
  (List.eraseIdx_sublist l i).subset h


theorem set_set_inverse :
    ∀ (l : List PieceOnBoard) (sq1 sq2 : Square)
      (F G : PieceOnBoard → PieceOnBoard) {l1 l2 : List PieceOnBoard},
      (∀ pb ∈ l, pb.2 ≠ sq2) → (∀ pb, (F pb).2 = sq2) →
      (∀ pb ∈ l, pb.2 = sq1 → G (F pb) = pb) →
      set_piece_at l sq1 F = some l1 → set_piece_at l1 sq2 G = some l2 →
      l2 = l := by
  intro l
  induction l with
  | nil => intro sq1 sq2 F G l1 l2 _ _ _ h1 _; exact absurd h1 (by simp [set_piece_at])
  | cons pb rest ih =>
    intro sq1 sq2 F G l1 l2 hfree hF hGF h1 h2
    rw [set_piece_at] at h1
    by_cases hsq : pb.2 = sq1
    · rw [if_pos hsq, Option.some_inj] at h1
      subst h1
      rw [set_piece_at, if_pos (hF pb), Option.some_inj] at h2
      subst h2
      rw [hGF pb (List.mem_cons_self pb rest) hsq]
    · rw [if_neg hsq] at h1
      rw [Option.map_eq_some'] at h1
      obtain ⟨r1, hr1, h1e⟩ := h1
      subst h1e
      rw [set_piece_at, if_neg (hfree pb (List.mem_cons_self pb rest))] at h2
      rw [Option.map_eq_some'] at h2
      obtain ⟨r2, hr2, h2e⟩ := h2
      subst h2e
      rw [ih sq1 sq2 F G (fun x hx => hfree x (List.mem_cons_of_mem pb hx)) hF
        (fun x hx hxsq => hGF x (List.mem_cons_of_mem pb hx) hxsq) hr1 hr2]

theorem set_set_comm :
    ∀ (l : List PieceOnBoard) (sq1 sq2 : Square)
      (F G : PieceOnBoard → PieceOnBoard) {l1 l2 : List PieceOnBoard},
      sq1 ≠ sq2 → (∀ pb, (F pb).2 ≠ sq2) → (∀ pb, (G pb).2 ≠ sq1) →
      set_piece_at l sq1 F = some l1 → set_piece_at l1 sq2 G = some l2 →
      ∃ t, set_piece_at l sq2 G = some t ∧ set_piece_at t sq1 F = some l2 := by
  intro l
  induction l with
  | nil => intro sq1 sq2 F G l1 l2 _ _ _ h1 _; exact absurd h1 (by simp [set_piece_at])
  | cons pb rest ih =>
    intro sq1 sq2 F G l1 l2 hne hF hG h1 h2
    rw [set_piece_at] at h1
    by_cases hsq1 : pb.2 = sq1
    · rw [if_pos hsq1, Option.some_inj] at h1
      subst h1
      rw [set_piece_at, if_neg (hF pb)] at h2
      rw [Option.map_eq_some'] at h2
      obtain ⟨r2, hr2, h2e⟩ := h2
      subst h2e
      refine ⟨pb :: r2, ?_, ?_⟩
      · rw [set_piece_at, if_neg (fun hc => hne (hsq1.symm.trans hc)), hr2]
        rfl
      · rw [set_piece_at, if_pos hsq1]
    · rw [if_neg hsq1] at h1
      rw [Option.map_eq_some'] at h1
      obtain ⟨r1, hr1, h1e⟩ := h1
      subst h1e
      rw [set_piece_at] at h2
      by_cases hsq2 : pb.2 = sq2
      · rw [if_pos hsq2, Option.some_inj] at h2
        subst h2
        refine ⟨G pb :: rest, ?_, ?_⟩
        · rw [set_piece_at, if_pos hsq2]
        · rw [set_piece_at, if_neg (hG pb), hr1]
          rfl
      · rw [if_neg hsq2] at h2
        rw [Option.map_eq_some'] at h2
        obtain ⟨r2, hr2, h2e⟩ := h2
        subst h2e
        obtain ⟨t, ht1, ht2⟩ := ih sq1 sq2 F G hne hF hG hr1 hr2
        refine ⟨pb :: t, ?_, ?_⟩
        · rw [set_piece_at, if_neg hsq2, ht1]
          rfl
        · rw [set_piece_at, if_neg hsq1, ht2]
          rfl

theorem mem_set_piece_at :
    ∀ {l : List PieceOnBoard} {sq : Square} {F : PieceOnBoard → PieceOnBoard}
      {l1 : List PieceOnBoard}, set_piece_at l sq F = some l1 →
      ∀ x ∈ l1, x ∈ l ∨ ∃ pb ∈ l, pb.2 = sq ∧ x = F pb := by
  intro l
  induction l with
  | nil => intro sq F l1 h; exact absurd h (by simp [set_piece_at])
  | cons pb rest ih =>
    intro sq F l1 h x hx
    rw [set_piece_at] at h
    by_cases hsq : pb.2 = sq
    · rw [if_pos hsq, Option.some_inj] at h
      subst h
      rcases List.mem_cons.mp hx with rfl | hx2
      · exact Or.inr ⟨pb, List.mem_cons_self pb rest, hsq, rfl⟩
      · exact Or.inl (List.mem_cons_of_mem pb hx2)
    · rw [if_neg hsq] at h
      rw [Option.map_eq_some'] at h
      obtain ⟨r1, hr1, he⟩ := h
      subst he
      rcases List.mem_cons.mp hx with rfl | hx2
      · exact Or.inl (List.mem_cons_self x rest)
      · rcases ih hr1 x hx2 with h1 | ⟨pb2, hpb2, hsq2, hxe⟩
        · exact Or.inl (List.mem_cons_of_mem pb h1)
        · exact Or.inr ⟨pb2, List.mem_cons_of_mem pb hpb2, hsq2, hxe⟩

theorem revert_apply_mut_id {m : Move} {pb : PieceOnBoard}
    (hsq : pb.2 = m.from')
    (hk : m.promotion = none ∨ pb.1.kind = PieceKind.Pawn) :
    revert_mut m (apply_mut m pb) = pb := by
  unfold apply_mut revert_mut
  cases hp : m.promotion <;> dsimp only
  · rw [← hsq]
  · rcases hk with hk | hk
    · rw [hp] at hk
      exact absurd hk (by simp)
    · rw [← hk, ← hsq]

theorem has_piece_at_false_all {b : Board} {sq : Square}
    (h : b.has_piece_at sq = false) : ∀ pb ∈ b.piece_list, pb.2 ≠ sq := by
  unfold Board.has_piece_at at h
  cases hf : b.piece_list.find? (fun pb => pb.2 == sq) <;> rw [hf] at h
  · intro pb hpb
    have := List.find?_eq_none.mp hf pb hpb
    simpa using this
  · simp at h


theorem color_switch_switch (c : Color) : c.switch.switch = c := by
  cases c <;> rfl

theorem apply_move_some {b : Board} {m : Move} {b1 : Board}
    (ha : b.apply_move m = some b1) :
    m.en_passant_before = b.en_passant ∧
    ∃ lc, ((m.capture = none ∧ lc = b.piece_list) ∨
        (∃ cap pos, m.capture = some cap ∧
          b.piece_list[pos]? = some cap ∧ lc = b.piece_list.eraseIdx pos)) ∧
      ∃ bi, Board.apply_move_impl { b with piece_list := lc } m = some bi ∧
        b1 = { bi with en_passant := m.en_passant_after,
                       castle_rights := m.castle_rights_after bi.side,
                       side := bi.side.switch } := by
  unfold Board.apply_move at ha
  split at ha
  · rename_i hep
    rw [Option.bind_eq_some] at ha
    obtain ⟨bc, hbc, hmap⟩ := ha
    rw [Option.map_eq_some'] at hmap
    obtain ⟨bi, hbi, h1e⟩ := hmap
    refine ⟨hep, ?_⟩
    cases hcap : m.capture with
    | none =>
      rw [hcap] at hbc
      dsimp only at hbc
      split at hbc
      · exact absurd hbc (by simp)
      · rw [Option.some_inj] at hbc
        subst hbc
        exact ⟨b.piece_list, Or.inl ⟨rfl, rfl⟩, bi, hbi, h1e.symm⟩
    | some cap =>
      rw [hcap] at hbc
      dsimp only at hbc
      cases hidx : b.piece_list.findIdx? (fun x => x.2 == cap.2) <;> rw [hidx] at hbc
      · exact absurd hbc (by simp)
      · rename_i pos
        dsimp only at hbc
        split at hbc
        · rename_i hgot
          rw [Option.some_inj] at hbc
          subst hbc
          exact ⟨_, Or.inr ⟨cap, pos, rfl, hgot, rfl⟩, bi, hbi, h1e.symm⟩
        · exact absurd hbc (by simp)
  · exact absurd ha (by simp)

theorem impl_nc_some {b : Board} {m : Move} {b2 : Board}
    (h : b.apply_move_impl_nc m = some b2) :
    ∃ p l2, b.piece_at m.from' = some p ∧ p.kind = m.piece_kind ∧
      set_piece_at b.piece_list m.from' (apply_mut m) = some l2 ∧
      b2 = { b with piece_list := l2 } := by
  unfold Board.apply_move_impl_nc at h
  cases hpa : b.piece_at m.from' <;> rw [hpa] at h
  · exact absurd h (by simp)
  · rename_i p
    dsimp only at h
    split at h
    · rename_i hkind
      rw [Option.map_eq_some'] at h
      obtain ⟨l2, hl2, he⟩ := h
      exact ⟨p, l2, rfl, hkind, hl2, he.symm⟩
    · exact absurd h (by simp)

theorem impl_some_of_nc {b : Board} {m : Move} {b2 : Board}
    (hc : m.castle = none) (h : b.apply_move_impl m = some b2) :
    ∃ p l2, b.piece_at m.from' = some p ∧ p.kind = m.piece_kind ∧
      set_piece_at b.piece_list m.from' (apply_mut m) = some l2 ∧
      b2 = { b with piece_list := l2 } := by
  unfold Board.apply_move_impl at h
  cases hpa : b.piece_at m.from' <;> rw [hpa] at h
  · exact absurd h (by simp)
  · rename_i p
    dsimp only at h
    split at h
    · rename_i hkind
      rw [hc] at h
      dsimp only at h
      rw [Option.map_eq_some'] at h
      obtain ⟨l2, hl2, he⟩ := h
      exact ⟨p, l2, rfl, hkind, hl2, he.symm⟩
    · exact absurd h (by simp)

theorem impl_some_of_castle {b : Board} {m : Move} {b2 : Board} {c : Castle}
    (hc : m.castle = some c) (h : b.apply_move_impl m = some b2) :
    ∃ p, b.piece_at m.from' = some p ∧ p.kind = m.piece_kind ∧
    ∃ rm, Move.rook_castle b c m.from'.rank = some rm ∧
    ∃ pr l1, b.piece_at rm.from' = some pr ∧ pr.kind = rm.piece_kind ∧
      set_piece_at b.piece_list rm.from' (apply_mut rm) = some l1 ∧
    ∃ l2, set_piece_at l1 m.from' (apply_mut m) = some l2 ∧
      b2 = { b with piece_list := l2 } := by
  unfold Board.apply_move_impl at h
  cases hpa : b.piece_at m.from' <;> rw [hpa] at h
  · exact absurd h (by simp)
  · rename_i p
    dsimp only at h
    split at h
    · rename_i hkind
      rw [hc] at h
      dsimp only at h
      rw [Option.bind_eq_some] at h
      obtain ⟨rm, hrm, h⟩ := h
      rw [Option.bind_eq_some] at h
      obtain ⟨bmid, hbmid, h⟩ := h
      rw [Option.map_eq_some'] at h
      obtain ⟨l2, hl2, he⟩ := h
      obtain ⟨pr, l1, hprat, hprk, hl1, hbmide⟩ := impl_nc_some hbmid
      subst hbmide
      exact ⟨p, rfl, hkind, rm, hrm, pr, l1, hprat, hprk, hl1, l2, hl2, he.symm⟩
    · exact absurd h (by simp)

theorem rook_castle_some {b : Board} {c : Castle} {rank : Int} {rm : Move}
    (h : Move.rook_castle b c rank = some rm) :
    rm.promotion = none ∧ rm.castle = none ∧ rm.piece_kind = PieceKind.Rook ∧
    ((c = Castle.KingSide ∧ rm.from' = Square.at' 7 rank ∧
        rm.to' = Square.at' 5 rank) ∨
     (c = Castle.QueenSide ∧ rm.from' = Square.at' 0 rank ∧
        rm.to' = Square.at' 3 rank)) := by
  unfold Move.rook_castle at h
  split at h
  · cases c <;> dsimp only at h <;> rw [Option.some_inj] at h <;> subst h
    · exact ⟨rfl, rfl, rfl, Or.inl ⟨rfl, rfl, rfl⟩⟩
    · exact ⟨rfl, rfl, rfl, Or.inr ⟨rfl, rfl, rfl⟩⟩
  · exact absurd h (by simp)

theorem revert_move_some {b1 : Board} {m : Move} {b2 : Board}
    (hr : b1.revert_move m = some b2) :
    ∃ bi, b1.revert_move_impl m = some bi ∧
    ∃ lr, ((m.capture = none ∧ lr = bi.piece_list) ∨
           (∃ cap, m.capture = some cap ∧ lr = bi.piece_list ++ [cap])) ∧
      b2 = { bi with
              piece_list := lr
              side := bi.side.switch
              en_passant := m.en_passant_before
              castle_rights := m.castle_rights_before } := by
  unfold Board.revert_move at hr
  rw [Option.bind_eq_some] at hr
  obtain ⟨bi, hbi, hmap⟩ := hr
  rw [Option.map_eq_some'] at hmap
  obtain ⟨b2m, hb2m, he⟩ := hmap
  cases hcap : m.capture with
  | none =>
    rw [hcap] at hb2m
    dsimp only at hb2m
    rw [Option.some_inj] at hb2m
    subst hb2m
    exact ⟨bi, hbi, bi.piece_list, Or.inl ⟨rfl, rfl⟩, he.symm⟩
  | some cap =>
    rw [hcap] at hb2m
    dsimp only at hb2m
    split at hb2m
    · exact absurd hb2m (by simp)
    · rw [Option.some_inj] at hb2m
      subst hb2m
      exact ⟨bi, hbi, bi.piece_list ++ [cap], Or.inr ⟨cap, rfl, rfl⟩, he.symm⟩

theorem revert_impl_nc_some {b : Board} {m : Move} {b2 : Board}
    (h : b.revert_move_impl_nc m = some b2) :
    ∃ p l2, b.piece_at m.to' = some p ∧ revert_kind_ok m p ∧
      set_piece_at b.piece_list m.to' (revert_mut m) = some l2 ∧
      b2 = { b with piece_list := l2 } := by
  unfold Board.revert_move_impl_nc at h
  cases hpa : b.piece_at m.to' <;> rw [hpa] at h
  · exact absurd h (by simp)
  · rename_i p
    dsimp only at h
    split at h
    · rename_i hkind
      rw [Option.map_eq_some'] at h
      obtain ⟨l2, hl2, he⟩ := h
      exact ⟨p, l2, rfl, hkind, hl2, he.symm⟩
    · exact absurd h (by simp)

theorem revert_impl_of_nc {b : Board} {m : Move} {b2 : Board}
    (hc : m.castle = none) (h : b.revert_move_impl m = some b2) :
    ∃ p l2, b.piece_at m.to' = some p ∧ revert_kind_ok m p ∧
      set_piece_at b.piece_list m.to' (revert_mut m) = some l2 ∧
      b2 = { b with piece_list := l2 } := by
  unfold Board.revert_move_impl at h
  cases hpa : b.piece_at m.to' <;> rw [hpa] at h
  · exact absurd h (by simp)
  · rename_i p
    dsimp only at h
    split at h
    · rename_i hkind
      rw [hc] at h
      dsimp only at h
      rw [Option.map_eq_some'] at h
      obtain ⟨l2, hl2, he⟩ := h
      exact ⟨p, l2, rfl, hkind, hl2, he.symm⟩
    · exact absurd h (by simp)

theorem revert_impl_of_castle {b : Board} {m : Move} {b2 : Board} {c : Castle}
    (hc : m.castle = some c) (h : b.revert_move_impl m = some b2) :
    ∃ p, b.piece_at m.to' = some p ∧ revert_kind_ok m p ∧
    ∃ rm, Move.rook_castle b c m.from'.rank = some rm ∧
    ∃ pr l1, b.piece_at rm.to' = some pr ∧ revert_kind_ok rm pr ∧
      set_piece_at b.piece_list rm.to' (revert_mut rm) = some l1 ∧
    ∃ l2, set_piece_at l1 m.to' (revert_mut m) = some l2 ∧
      b2 = { b with piece_list := l2 } := by
  unfold Board.revert_move_impl at h
  cases hpa : b.piece_at m.to' <;> rw [hpa] at h
  · exact absurd h (by simp)
  · rename_i p
    dsimp only at h
    split at h
    · rename_i hkind
      rw [hc] at h
      dsimp only at h
      rw [Option.bind_eq_some] at h
      obtain ⟨rm, hrm, h⟩ := h
      rw [Option.bind_eq_some] at h
      obtain ⟨bmid, hbmid, h⟩ := h
      rw [Option.map_eq_some'] at h
      obtain ⟨l2, hl2, he⟩ := h
      obtain ⟨pr, l1, hprat, hprk, hl1, hbmide⟩ := revert_impl_nc_some hbmid
      subst hbmide
      exact ⟨p, rfl, hkind, rm, hrm, pr, l1, hprat, hprk, hl1, l2, hl2, he.symm⟩
    · exact absurd h (by simp)


theorem revert_apply_mut_id2 {m1 m2 : Move} {pb : PieceOnBoard}
    (h1 : m1.promotion = none) (h2 : m2.promotion = none)
    (hsq : pb.2 = m2.from') : revert_mut m2 (apply_mut m1 pb) = pb := by
  unfold apply_mut revert_mut
  rw [h1, h2]
  dsimp only
  rw [← hsq]


/-- C1 (amended): on a well-formed board, applying a generated move and
reverting it with the same Move value restores a board semantically
equal to the original (same side, en-passant target, castle rights, and
piece multiset up to list order). -/
theorem apply_revert_semantic_eq {b : Board} {ms : List Move} {m : Move}
    {b1 b2 : Board} (hwf : WellFormed b) (hg : generate_moves b = some ms)
    (hm : m ∈ ms) (ha : b.apply_move m = some b1)
    (hr : b1.revert_move m = some b2) :
    b.semantic_eq b2 = true := by
  obtain ⟨hd, hob, hept, hepb, hepob, hrrc, hkrc, hku⟩ := hwf
  obtain ⟨pb, hpb, hside, hf⟩ := generate_moves_facts hg hm
  obtain ⟨hepm, lc, hlc, bi, hbi, hb1e⟩ := apply_move_some ha
  obtain ⟨bir, hbir, lr, hlr, hb2e⟩ := revert_move_some hr
  rcases hf with ⟨hfrom, hkind, hepb2, hcrb, hcastle, hprm, hcapd⟩ |
    ⟨hkp, hfrom, hkind, hepb2, hcrb, hcastle, hprm, hept2, cap, hcapm, hsqc, hatc⟩ |
    ⟨hkk, s, hmeq, hrgt, hemp⟩
  · -- non-castle, non-en-passant move
    obtain ⟨p, l2, hat, hpk, hset1, hbie⟩ := impl_some_of_nc hcastle hbi
    subst hbie
    subst hb1e
    obtain ⟨p2, l3, hat2, hok2, hset2, hbire⟩ := revert_impl_of_nc hcastle hbir
    subst hbire
    subst hb2e
    dsimp only at hset1 hset2 ⊢
    refine semantic_eq_of_perm ?_ ?_ ?_ ?_
    · exact (color_switch_switch b.side).symm
    · exact hepm.symm
    · exact hcrb.symm
    · -- piece list permutation
      rcases hcapd with ⟨hcapn, hfree_to, _⟩ | ⟨cap, hcapm, hsqc, hatc, hcolc⟩
      · rcases hlc with ⟨_, hlce⟩ | ⟨cap0, pos, hcap0, _, _⟩
        swap
        · rw [hcapn] at hcap0
          exact absurd hcap0 (by simp)
        subst hlce
        rcases hlr with ⟨_, hlre⟩ | ⟨capr, hcapr, _⟩
        swap
        · rw [hcapn] at hcapr
          exact absurd hcapr (by simp)
        subst hlre
        dsimp only
        have hGF : ∀ x ∈ b.piece_list, x.2 = m.from' →
            revert_mut m (apply_mut m x) = x := by
          intro x hx hxsq
          refine revert_apply_mut_id hxsq ?_
          rcases hprm with h | h
          · exact Or.inl h
          · right
            have hx2 : x = pb :=
              unique_square hd hx hpb (hxsq.trans hfrom)
            rw [hx2, ← hkind]
            exact h
        have hl3 : lr = b.piece_list :=
          set_set_inverse b.piece_list m.from' m.to' (apply_mut m)
            (revert_mut m) (has_piece_at_false_all hfree_to) (fun pb => rfl)
            hGF hset1 hset2
        rw [hl3]
      · rcases hlc with ⟨hcn, _⟩ | ⟨cap0, pos, hcap0, hgot, hlce⟩
        · rw [hcn] at hcapm
          exact absurd hcapm (by simp)
        rw [hcapm] at hcap0
        rw [Option.some_inj] at hcap0
        subst hcap0
        subst hlce
        rcases hlr with ⟨hcn2, _⟩ | ⟨capr, hcapr, hlre⟩
        · rw [hcn2] at hcapm
          exact absurd hcapm (by simp)
        rw [hcapm] at hcapr
        rw [Option.some_inj] at hcapr
        subst hcapr
        subst hlre
        dsimp only
        have hd2 : (b.piece_list.map fun x => x.2).Nodup := hd
        have hndl : b.piece_list.Nodup := hd2.of_map
        have hfree : ∀ x ∈ b.piece_list.eraseIdx pos, x.2 ≠ m.to' := by
          intro x hx hxeq
          have hxl : x ∈ b.piece_list := mem_of_mem_eraseIdx hx
          have hcapl : cap ∈ b.piece_list := List.getElem?_mem hgot
          have hxc : x = cap :=
            unique_square hd2 hxl hcapl (by rw [hxeq, ← hsqc])
          rw [hxc] at hx
          exact not_mem_eraseIdx_nodup hndl hgot hx
        have hGF : ∀ x ∈ b.piece_list.eraseIdx pos, x.2 = m.from' →
            revert_mut m (apply_mut m x) = x := by
          intro x hx hxsq
          refine revert_apply_mut_id hxsq ?_
          rcases hprm with h | h
          · exact Or.inl h
          · right
            have hx2 : x = pb :=
              unique_square hd2 (mem_of_mem_eraseIdx hx) hpb (hxsq.trans hfrom)
            rw [hx2, ← hkind]
            exact h
        have hl3 : l3 = b.piece_list.eraseIdx pos :=
          set_set_inverse (b.piece_list.eraseIdx pos) m.from' m.to'
            (apply_mut m) (revert_mut m) hfree (fun pb => rfl) hGF hset1 hset2
        rw [hl3]
        exact perm_eraseIdx_append hgot
  · -- en-passant capture
    obtain ⟨p, l2, hat, hpk, hset1, hbie⟩ := impl_some_of_nc hcastle hbi
    subst hbie
    subst hb1e
    obtain ⟨p2, l3, hat2, hok2, hset2, hbire⟩ := revert_impl_of_nc hcastle hbir
    subst hbire
    subst hb2e
    dsimp only at hset1 hset2 ⊢
    refine semantic_eq_of_perm ?_ ?_ ?_ ?_
    · exact (color_switch_switch b.side).symm
    · exact hepm.symm
    · exact hcrb.symm
    · rcases hlc with ⟨hcn, _⟩ | ⟨cap0, pos, hcap0, hgot, hlce⟩
      · rw [hcn] at hcapm
        exact absurd hcapm (by simp)
      rw [hcapm] at hcap0
      rw [Option.some_inj] at hcap0
      subst hcap0
      subst hlce
      rcases hlr with ⟨hcn2, _⟩ | ⟨capr, hcapr, hlre⟩
      · rw [hcn2] at hcapm
        exact absurd hcapm (by simp)
      rw [hcapm] at hcapr
      rw [Option.some_inj] at hcapr
      subst hcapr
      subst hlre
      dsimp only
      have hfree_to : b.has_piece_at m.to' = false := by
        unfold ep_target_empty at hept
        rw [hept2] at hept
        dsimp only at hept
        exact hept
      have hfree : ∀ x ∈ b.piece_list.eraseIdx pos, x.2 ≠ m.to' := fun x hx =>
        has_piece_at_false_all hfree_to x (mem_of_mem_eraseIdx hx)
      have hGF : ∀ x ∈ b.piece_list.eraseIdx pos, x.2 = m.from' →
          revert_mut m (apply_mut m x) = x := fun x _ hxsq =>
        revert_apply_mut_id hxsq (Or.inl hprm)
      have hl3 : l3 = b.piece_list.eraseIdx pos :=
        set_set_inverse _ m.from' m.to' _ _ hfree (fun pb => rfl) hGF hset1 hset2
      rw [hl3]
      exact perm_eraseIdx_append hgot
  · -- castle
    rw [hside] at hmeq hrgt hemp
    subst hmeq
    obtain ⟨p, hat, hpk, rm, hrm, pr, l1, hatr, hprk, hset1, l2, hset2, hbie⟩ :=
      impl_some_of_castle rfl hbi
    subst hbie
    subst hb1e
    obtain ⟨p2, hat2, hok2, rm2, hrm2, pr2, l3, hatr2, hok3, hset3, l4, hset4,
      hbire⟩ := revert_impl_of_castle rfl hbir
    subst hbire
    subst hb2e
    dsimp only at hset1 hset2 hset3 hset4 ⊢
    obtain ⟨hrmp, hrmc, hrmk, hrmsq⟩ := rook_castle_some hrm
    obtain ⟨hrm2p, hrm2c, hrm2k, hrm2sq⟩ := rook_castle_some hrm2
    refine semantic_eq_of_perm ?_ ?_ ?_ ?_
    · exact (color_switch_switch b.side).symm
    · exact hepm.symm
    · rfl
    · rcases hlc with ⟨_, hlce⟩ | ⟨cap0, pos, hcap0, _, _⟩
      swap
      · exact absurd hcap0 (by simp [Move.castle', Move.from_to])
      subst hlce
      rcases hlr with ⟨_, hlre⟩ | ⟨capr, hcapr, _⟩
      swap
      · exact absurd hcapr (by simp [Move.castle', Move.from_to])
      subst hlre
      dsimp only
      rcases hrmsq with ⟨hs, hrf, hrt⟩ | ⟨hs, hrf, hrt⟩ <;>
        rcases hrm2sq with ⟨hs2, hrf2, hrt2⟩ | ⟨hs2, hrf2, hrt2⟩
      · -- king side
        subst hs
        obtain ⟨hemp5, hemp6⟩ := hemp
        have h5 : b.has_piece_at (Square.at' 5 b.side.back_rank) = false := by
          rw [← Bool.not_eq_true]
          exact hemp5
        have h6 : b.has_piece_at (Square.at' 6 b.side.back_rank) = false := by
          rw [← Bool.not_eq_true]
          exact hemp6
        have hne : (Move.castle' b b.side Castle.KingSide).from' ≠ rm2.to' := by
          rw [hrt2]
          show Square.at' 4 b.side.back_rank ≠ Square.at' 5 b.side.back_rank
          simp [Square.at']
        have hFne : ∀ x : PieceOnBoard,
            (apply_mut (Move.castle' b b.side Castle.KingSide) x).2 ≠ rm2.to' := by
          intro x
          rw [hrt2]
          show Square.at' 6 b.side.back_rank ≠ Square.at' 5 b.side.back_rank
          simp [Square.at']
        have hGne : ∀ x : PieceOnBoard,
            (revert_mut rm2 x).2 ≠ (Move.castle' b b.side Castle.KingSide).from' := by
          intro x
          show rm2.from' ≠ _
          rw [hrf2]
          show Square.at' 7 b.side.back_rank ≠ Square.at' 4 b.side.back_rank
          simp [Square.at']
        obtain ⟨t, ht1, ht2⟩ :=
          set_set_comm l1 _ rm2.to' _ (revert_mut rm2) hne hFne hGne hset2 hset3
        have hfree5 : ∀ x ∈ b.piece_list, x.2 ≠ rm2.to' := by
          intro x hx
          rw [hrt2]
          exact has_piece_at_false_all h5 x hx
        have hFr : ∀ x : PieceOnBoard, (apply_mut rm x).2 = rm2.to' := by
          intro x
          show rm.to' = rm2.to'
          rw [hrt, hrt2]
        have hGFr : ∀ x ∈ b.piece_list, x.2 = rm.from' →
            revert_mut rm2 (apply_mut rm x) = x := by
          intro x _ hxsq
          exact revert_apply_mut_id2 hrmp hrm2p (hxsq.trans (hrf.trans hrf2.symm))
        have ht : t = b.piece_list :=
          set_set_inverse b.piece_list rm.from' rm2.to' (apply_mut rm)
            (revert_mut rm2) hfree5 hFr hGFr hset1 ht1
        rw [ht] at ht2
        have hfree6 : ∀ x ∈ b.piece_list,
            x.2 ≠ (Move.castle' b b.side Castle.KingSide).to' := by
          intro x hx
          show x.2 ≠ Square.at' 6 b.side.back_rank
          exact has_piece_at_false_all h6 x hx
        have hl4 : lr = b.piece_list :=
          set_set_inverse b.piece_list _ _
            (apply_mut (Move.castle' b b.side Castle.KingSide))
            (revert_mut (Move.castle' b b.side Castle.KingSide)) hfree6
            (fun x => rfl)
            (fun x _ hxsq => revert_apply_mut_id hxsq (Or.inl rfl)) ht2 hset4
        rw [hl4]
      · exact absurd (hs.symm.trans hs2) (by simp)
      · exact absurd (hs.symm.trans hs2) (by simp)
      · -- queen side
        subst hs
        obtain ⟨hemp3, hemp2, hemp1⟩ := hemp
        have h3 : b.has_piece_at (Square.at' 3 b.side.back_rank) = false := by
          rw [← Bool.not_eq_true]
          exact hemp3
        have h2 : b.has_piece_at (Square.at' 2 b.side.back_rank) = false := by
          rw [← Bool.not_eq_true]
          exact hemp2
        have hne : (Move.castle' b b.side Castle.QueenSide).from' ≠ rm2.to' := by
          rw [hrt2]
          show Square.at' 4 b.side.back_rank ≠ Square.at' 3 b.side.back_rank
          simp [Square.at']
        have hFne : ∀ x : PieceOnBoard,
            (apply_mut (Move.castle' b b.side Castle.QueenSide) x).2 ≠ rm2.to' := by
          intro x
          rw [hrt2]
          show Square.at' 2 b.side.back_rank ≠ Square.at' 3 b.side.back_rank
          simp [Square.at']
        have hGne : ∀ x : PieceOnBoard,
            (revert_mut rm2 x).2 ≠ (Move.castle' b b.side Castle.QueenSide).from' := by
          intro x
          show rm2.from' ≠ _
          rw [hrf2]
          show Square.at' 0 b.side.back_rank ≠ Square.at' 4 b.side.back_rank
          simp [Square.at']
        obtain ⟨t, ht1, ht2⟩ :=
          set_set_comm l1 _ rm2.to' _ (revert_mut rm2) hne hFne hGne hset2 hset3
        have hfree3 : ∀ x ∈ b.piece_list, x.2 ≠ rm2.to' := by
          intro x hx
          rw [hrt2]
          exact has_piece_at_false_all h3 x hx
        have hFr : ∀ x : PieceOnBoard, (apply_mut rm x).2 = rm2.to' := by
          intro x
          show rm.to' = rm2.to'
          rw [hrt, hrt2]
        have hGFr : ∀ x ∈ b.piece_list, x.2 = rm.from' →
            revert_mut rm2 (apply_mut rm x) = x := by
          intro x _ hxsq
          exact revert_apply_mut_id2 hrmp hrm2p (hxsq.trans (hrf.trans hrf2.symm))
        have ht : t = b.piece_list :=
          set_set_inverse b.piece_list rm.from' rm2.to' (apply_mut rm)
            (revert_mut rm2) hfree3 hFr hGFr hset1 ht1
        rw [ht] at ht2
        have hfree2 : ∀ x ∈ b.piece_list,
            x.2 ≠ (Move.castle' b b.side Castle.QueenSide).to' := by
          intro x hx
          show x.2 ≠ Square.at' 2 b.side.back_rank
          exact has_piece_at_false_all h2 x hx
        have hl4 : lr = b.piece_list :=
          set_set_inverse b.piece_list _ _
            (apply_mut (Move.castle' b b.side Castle.QueenSide))
            (revert_mut (Move.castle' b b.side Castle.QueenSide)) hfree2
            (fun x => rfl)
            (fun x _ hxsq => revert_apply_mut_id hxsq (Or.inl rfl)) ht2 hset4
        rw [hl4]

theorem apply_revert_semantic_eq_witness :
    WellFormed board_pawn ∧
    generate_moves board_pawn = some [move_push, move_double] ∧
    move_push ∈ [move_push, move_double] ∧
    board_pawn.apply_move move_push = some board_pawn_applied ∧
    board_pawn_applied.revert_move move_push = some board_pawn_rt ∧
    board_pawn.semantic_eq board_pawn_rt = true :=
  ⟨by decide, by decide, by decide, by decide, by decide,
   @apply_revert_semantic_eq board_pawn [move_push, move_double] move_push
     board_pawn_applied board_pawn_rt (by decide) (by decide) (by decide)
     (by decide) (by decide)⟩

theorem minimax_zero (b : Board) (neg : Int) (n : Nat) :
    minimax b neg 0 n = some (static_evaluation b, [], b, n + 1) := rfl

theorem alpha_beta_max_zero (b : Board) (alpha beta : Int) (n : Nat) :
    alpha_beta_max b alpha beta 0 n = some (static_evaluation b, b, n + 1) := rfl

theorem alpha_beta_min_zero (b : Board) (alpha beta : Int) (n : Nat) :
    alpha_beta_min b alpha beta 0 n = some (static_evaluation b, b, n + 1) := rfl

theorem minimax_succ (b : Board) (neg : Int) (r n : Nat) :
    minimax b neg (r + 1) n =
      (generate_moves b).bind fun ms =>
      if ms.isEmpty then some (static_evaluation b, [], b, n + 1)
      else
        (minimax_loop (fun b1 neg1 n1 => minimax b1 neg1 r n1) neg ms b none
            (n + 1)).bind fun st =>
          match st.1 with
          | some best => some (best.1 * neg, best.2, st.2.1, st.2.2)
          | none => none := rfl

theorem minimax_loop_nil
    (child : Board → Int → Nat → Option (Int × List Move × Board × Nat))
    (neg : Int) (b : Board) (best : Option (Int × List Move)) (n : Nat) :
    minimax_loop child neg [] b best n = some (best, b, n) := rfl

theorem minimax_loop_cons
    (child : Board → Int → Nat → Option (Int × List Move × Board × Nat))
    (neg : Int) (m : Move) (rest : List Move) (b : Board)
    (best : Option (Int × List Move)) (n : Nat) :
    minimax_loop child neg (m :: rest) b best n =
      (b.apply_move m).bind fun b1 =>
      (child b1 (neg * -1) n).bind fun res =>
      (res.2.2.1.revert_move m).bind fun b3 =>
      minimax_loop child neg rest b3
        (match best with
         | none => some (res.1 * neg, m :: res.2.1)
         | some prev =>
           if res.1 * neg > prev.1 then some (res.1 * neg, m :: res.2.1)
           else some prev) res.2.2.2 := rfl

theorem set_piece_at_length :
    ∀ {l : List PieceOnBoard} {sq : Square} {F : PieceOnBoard → PieceOnBoard}
      {l1 : List PieceOnBoard}, set_piece_at l sq F = some l1 →
      l1.length = l.length := by
  intro l
  induction l with
  | nil => intro sq F l1 h; exact absurd h (by simp [set_piece_at])
  | cons pb rest ih =>
    intro sq F l1 h
    rw [set_piece_at] at h
    by_cases hsq : pb.2 = sq
    · rw [if_pos hsq, Option.some_inj] at h
      subst h
      rfl
    · rw [if_neg hsq, Option.map_eq_some'] at h
      obtain ⟨r1, hr1, he⟩ := h
      subst he
      rw [List.length_cons, List.length_cons, ih hr1]

theorem impl_length {b : Board} {m : Move} {b2 : Board}
    (h : b.apply_move_impl m = some b2) :
    b2.piece_list.length = b.piece_list.length := by
  cases hc : m.castle with
  | none =>
    obtain ⟨p, l2, _, _, hset, he⟩ := impl_some_of_nc hc h
    subst he
    exact set_piece_at_length hset
  | some c =>
    obtain ⟨p, _, _, rm, _, pr, l1, _, _, hset1, l2, hset2, he⟩ :=
      impl_some_of_castle hc h
    subst he
    rw [set_piece_at_length hset2, set_piece_at_length hset1]

theorem revert_impl_length {b : Board} {m : Move} {b2 : Board}
    (h : b.revert_move_impl m = some b2) :
    b2.piece_list.length = b.piece_list.length := by
  cases hc : m.castle with
  | none =>
    obtain ⟨p, l2, _, _, hset, he⟩ := revert_impl_of_nc hc h
    subst he
    exact set_piece_at_length hset
  | some c =>
    obtain ⟨p, _, _, rm, _, pr, l1, _, _, hset1, l2, hset2, he⟩ :=
      revert_impl_of_castle hc h
    subst he
    rw [set_piece_at_length hset2, set_piece_at_length hset1]

theorem apply_move_length {b : Board} {m : Move} {b1 : Board}
    (ha : b.apply_move m = some b1) :
    b1.piece_list.length ≤ b.piece_list.length ∧
      b1.piece_list.length + (match m.capture with | some _ => 1 | none => 0) =
        b.piece_list.length := by
  obtain ⟨_, lc, hlc, bi, hbi, hb1e⟩ := apply_move_some ha
  subst hb1e
  have hlen := impl_length hbi
  dsimp only at hlen
  rcases hlc with ⟨hcn, hlce⟩ | ⟨cap, pos, hcs, hgot, hlce⟩
  · subst hlce
    rw [hcn]
    dsimp only
    rw [hlen]
    exact ⟨le_refl _, rfl⟩
  · subst hlce
    rw [hcs]
    dsimp only
    have hpos : pos < b.piece_list.length := (List.getElem?_eq_some_iff.mp hgot).1
    rw [hlen, List.length_eraseIdx_of_lt hpos]
    omega

theorem revert_move_length {b1 : Board} {m : Move} {b2 : Board}
    (hr : b1.revert_move m = some b2) :
    b2.piece_list.length =
      b1.piece_list.length + (match m.capture with | some _ => 1 | none => 0) := by
  obtain ⟨bi, hbi, lr, hlr, hb2e⟩ := revert_move_some hr
  subst hb2e
  have hlen := revert_impl_length hbi
  rcases hlr with ⟨hcn, hlre⟩ | ⟨cap, hcs, hlre⟩
  · subst hlre
    rw [hcn]
    dsimp only
    exact hlen
  · subst hlre
    rw [hcs]
    dsimp only
    rw [List.length_append, hlen]
    rfl

theorem round_trip_length {b : Board} {m : Move} {b1 b2 : Board}
    (ha : b.apply_move m = some b1) (hr : b1.revert_move m = some b2) :
    b2.piece_list.length = b.piece_list.length := by
  have h1 := (apply_move_length ha).2
  have h2 := revert_move_length hr
  omega

theorem piece_value_bound (p : Piece) : -200 ≤ p.value ∧ p.value ≤ 200 := by
  obtain ⟨k, c⟩ := p
  cases k <;> cases c <;> decide

theorem static_fold_bound :
    ∀ (l : List PieceOnBoard) (a : Int),
      a - 200 * (l.length : Int) ≤
          l.foldl (fun acc pb => acc + pb.1.value) a ∧
        l.foldl (fun acc pb => acc + pb.1.value) a ≤
          a + 200 * (l.length : Int) := by
  intro l
  induction l with
  | nil => intro a; simp
  | cons pb rest ih =>
    intro a
    rw [List.foldl_cons]
    have hv := piece_value_bound pb.1
    have hrec := ih (a + pb.1.value)
    rw [List.length_cons]
    push_cast
    push_cast at hrec
    constructor <;> omega

theorem static_evaluation_bound (b : Board) :
    -(200 * (b.piece_list.length : Int)) ≤ static_evaluation b ∧
      static_evaluation b ≤ 200 * (b.piece_list.length : Int) := by
  have h := static_fold_bound b.piece_list 0
  unfold static_evaluation
  omega


theorem loop_shallow_white (N : Nat) (hN : 200 * (N : Int) < fMAX) :
    ∀ (ms : List Move) (bcur : Board) (alpha : Int)
      (bestm : Option (Int × List Move)) (besta : Option Int) (n1 n2 : Nat),
      bcur.piece_list.length ≤ N →
      besta = bestm.map (fun p => p.1) →
      ((minimax_loop (fun b1 neg1 n1 => minimax b1 neg1 0 n1) 1 ms bcur bestm
          n1).bind fun st => st.1.map (fun p => p.1)) =
        ((ab_max_loop (fun b1 a1 b1' n1 => alpha_beta_min b1 a1 b1' 0 n1)
            ms bcur alpha fMAX besta n2).map fun r => r.1) := by
  intro ms
  induction ms with
  | nil =>
    intro bcur alpha bestm besta n1 n2 hlen hrel
    subst hrel
    rw [minimax_loop_nil, ab_max_loop_nil]
    cases bestm <;> rfl
  | cons m rest ih =>
    intro bcur alpha bestm besta n1 n2 hlen hrel
    subst hrel
    rw [minimax_loop_cons, ab_max_loop_cons]
    cases ha : bcur.apply_move m with
    | none => simp
    | some b1 =>
      simp only [Option.some_bind]
      rw [minimax_zero, alpha_beta_min_zero]
      simp only [Option.some_bind]
      cases hr : b1.revert_move m with
      | none => simp
      | some b3 =>
        simp only [Option.some_bind]
        have hlen1 : b1.piece_list.length ≤ N :=
          le_trans (apply_move_length ha).1 hlen
        have hsb := static_evaluation_bound b1
        have hcut : ¬ (static_evaluation b1 ≥ fMAX) := by
          have hc : (b1.piece_list.length : Int) ≤ (N : Int) := by
            exact_mod_cast hlen1
          omega
        rw [if_neg hcut]
        have hlen3 : b3.piece_list.length ≤ N := by
          rw [round_trip_length ha hr]
          exact hlen
        cases bestm with
        | none =>
          exact ih b3 (if static_evaluation b1 > alpha then static_evaluation b1
              else alpha) (some (static_evaluation b1 * 1, m :: []))
            (some (static_evaluation b1)) (n1 + 1) (n2 + 1) hlen3 (by simp)
        | some prev =>
          simp only [Option.map_some']
          by_cases hcmp : static_evaluation b1 * 1 > prev.1
          · have hcmp2 : static_evaluation b1 > prev.1 := by rwa [mul_one] at hcmp
            rw [if_pos hcmp, if_pos hcmp2]
            exact ih b3 _ (some (static_evaluation b1 * 1, m :: []))
              (some (static_evaluation b1)) (n1 + 1) (n2 + 1) hlen3 (by simp)
          · have hcmp2 : ¬ (static_evaluation b1 > prev.1) := by
              rwa [mul_one] at hcmp
            rw [if_neg hcmp, if_neg hcmp2]
            exact ih b3 _ (some prev) (some prev.1) (n1 + 1) (n2 + 1) hlen3 rfl


theorem loop_shallow_black (N : Nat) (hN : 200 * (N : Int) < fMAX) :
    ∀ (ms : List Move) (bcur : Board) (beta : Int)
      (bestm : Option (Int × List Move)) (besta : Option Int) (n1 n2 : Nat),
      bcur.piece_list.length ≤ N →
      besta = bestm.map (fun p => -p.1) →
      ((minimax_loop (fun b1 neg1 n1 => minimax b1 neg1 0 n1) (-1) ms bcur bestm
          n1).bind fun st => st.1.map (fun p => -p.1)) =
        ((ab_min_loop (fun b1 a1 b1' n1 => alpha_beta_max b1 a1 b1' 0 n1)
            ms bcur (-fMAX) beta besta n2).map fun r => r.1) := by
  intro ms
  induction ms with
  | nil =>
    intro bcur beta bestm besta n1 n2 hlen hrel
    subst hrel
    rw [minimax_loop_nil, ab_min_loop_nil]
    cases bestm <;> rfl
  | cons m rest ih =>
    intro bcur beta bestm besta n1 n2 hlen hrel
    subst hrel
    rw [minimax_loop_cons, ab_min_loop_cons]
    cases ha : bcur.apply_move m with
    | none => simp
    | some b1 =>
      simp only [Option.some_bind]
      rw [minimax_zero, alpha_beta_max_zero]
      simp only [Option.some_bind]
      cases hr : b1.revert_move m with
      | none => simp
      | some b3 =>
        simp only [Option.some_bind]
        have hlen1 : b1.piece_list.length ≤ N :=
          le_trans (apply_move_length ha).1 hlen
        have hsb := static_evaluation_bound b1
        have hcut : ¬ (static_evaluation b1 ≤ -fMAX) := by
          have hc : (b1.piece_list.length : Int) ≤ (N : Int) := by
            exact_mod_cast hlen1
          omega
        rw [if_neg hcut]
        have hlen3 : b3.piece_list.length ≤ N := by
          rw [round_trip_length ha hr]
          exact hlen
        cases bestm with
        | none =>
          exact ih b3 (if static_evaluation b1 < beta then static_evaluation b1
              else beta) (some (static_evaluation b1 * -1, m :: []))
            (some (static_evaluation b1)) (n1 + 1) (n2 + 1) hlen3 (by simp)
        | some prev =>
          simp only [Option.map_some']
          by_cases hcmp : static_evaluation b1 * -1 > prev.1
          · have hcmp2 : static_evaluation b1 < -prev.1 := by
              rw [mul_neg_one] at hcmp
              omega
            rw [if_pos hcmp, if_pos hcmp2]
            exact ih b3 _ (some (static_evaluation b1 * -1, m :: []))
              (some (static_evaluation b1)) (n1 + 1) (n2 + 1) hlen3 (by simp)
          · have hcmp2 : ¬ (static_evaluation b1 < -prev.1) := by
              rw [mul_neg_one] at hcmp
              omega
            rw [if_neg hcmp, if_neg hcmp2]
            exact ih b3 _ (some prev) (some (-prev.1)) (n1 + 1) (n2 + 1) hlen3 rfl


/-- C2 (amended): at remaining depth 0, and at depth 1 on every board
whose piece count keeps the material total below `f32::MAX`, the minimax
and alpha-beta evaluators return the same evaluation; at depth 2 the two
strategies diverge (see the counterexample): minimax aborts on a line
that alpha-beta prunes. -/
theorem search_equivalence_shallow {b : Board} {d : Nat} (hd : d ≤ 1)
    (hlen : 200 * (b.piece_list.length : Int) < fMAX) :
    minimax_value b d = alpha_beta_value b d := by
  cases d with
  | zero =>
    cases hbs : b.side
    · rw [alpha_beta_value_white b 0 hbs]
      unfold minimax_value minimax_evaluate
      rw [hbs]
      rfl
    · rw [alpha_beta_value_black b 0 hbs]
      unfold minimax_value minimax_evaluate
      rw [hbs]
      rfl
  | succ d0 =>
    have hd0 : d0 = 0 := by omega
    subst hd0
    cases hbs : b.side
    · rw [alpha_beta_value_white b 1 hbs]
      unfold minimax_value minimax_evaluate
      rw [hbs]
      dsimp only
      rw [minimax_succ, alpha_beta_max_succ]
      cases hg : generate_moves b with
      | none => rfl
      | some ms =>
        simp only [Option.some_bind]
        by_cases hemp : ms.isEmpty
        · rw [if_pos hemp, if_pos hemp]
          rfl
        · rw [if_neg hemp, if_neg hemp]
          have hloop := loop_shallow_white b.piece_list.length hlen ms b (-fMAX)
            none none 1 1 (le_refl _) rfl
          rw [← hloop]
          cases hres : minimax_loop (fun b1 neg1 n1 => minimax b1 neg1 0 n1) 1
              ms b none 1 with
          | none => rfl
          | some st =>
            simp only [Option.some_bind]
            cases st.1 with
            | none => rfl
            | some best => simp [mul_one]
    · rw [alpha_beta_value_black b 1 hbs]
      unfold minimax_value minimax_evaluate
      rw [hbs]
      dsimp only
      rw [minimax_succ, alpha_beta_min_succ]
      cases hg : generate_moves b with
      | none => rfl
      | some ms =>
        simp only [Option.some_bind]
        by_cases hemp : ms.isEmpty
        · rw [if_pos hemp, if_pos hemp]
          rfl
        · rw [if_neg hemp, if_neg hemp]
          have hloop := loop_shallow_black b.piece_list.length hlen ms b fMAX
            none none 1 1 (le_refl _) rfl
          rw [← hloop]
          cases hres : minimax_loop (fun b1 neg1 n1 => minimax b1 neg1 0 n1) (-1)
              ms b none 1 with
          | none => rfl
          | some st =>
            simp only [Option.some_bind]
            cases st.1 with
            | none => rfl
            | some best => simp [mul_neg_one]

set_option maxRecDepth 4000 in
theorem search_equivalence_shallow_witness :
    (1 : Nat) ≤ 1 ∧ 200 * (board_pawn.piece_list.length : Int) < fMAX ∧
      minimax_value board_pawn 1 = alpha_beta_value board_pawn 1 :=
  ⟨by decide, by decide, search_equivalence_shallow (by decide) (by decide)⟩

end Mess
